import Mathlib

/-!
Verification of the deterministic quiz generator in
`src/quiz_backend/src/services/quiz_generator.py`, together with the
input-validation guard of `src/quiz_backend/src/api/main.py` (`submit_notes`).

Modelling conventions:
* Python strings are modelled as `List Char` (`Str`).  The helpers
  (`str.strip`, `str.split`, `" ".join`, `str.capitalize`, slicing, the
  regexes `[A-Za-z]+`, `(?<=[.!?])\s+` and the word-boundary substitution)
  are each translated directly from the source.
* `hashlib.sha256(...).hexdigest()` is an external library call; it is kept
  abstract as a function parameter `sha : Str → Str`.
* `random.Random(seed)` is modelled by an abstract draw stream
  `mt : Nat → Nat → Nat → Nat`, where `mt seed k n` stands for the value of
  the k-th call to `Random._randbelow n` after seeding with `seed`
  (CPython realises these draws with a Mersenne Twister whose `_randbelow`
  is itself an unbounded rejection loop, hence not directly a total
  function).  Reducing the draw modulo `n` makes every actual execution of
  the Python generator an instance of the model.  `shuffle` and `choice`
  are translated from CPython on top of `randbelow`.
* The two `while` loops of the source whose exit depends on the drawn
  values (the variant-synthesis loop of `_pick_distractors` and the
  dedup re-padding loop in `generate_quiz_from_notes`) receive explicit
  fuel and return `none` when the fuel is exhausted while the loop
  condition still holds; every other loop of the source is structurally
  bounded.
-/

namespace QuizGen

abbrev Str := List Char

/-- Whitespace characters recognised by Python `str.strip()` / `str.split()`
(ASCII part: space, \t, \n, \r, \x0b, \x0c). -/
def isPySpace (c : Char) : Bool :=
  decide (c = ' ' ∨ c.toNat = 9 ∨ c.toNat = 10 ∨ c.toNat = 11 ∨ c.toNat = 12 ∨ c.toNat = 13)

/-- Characters of Python `string.punctuation` (ASCII 33-47, 58-64, 91-96, 123-126). -/
def isPyPunct (c : Char) : Bool :=
  decide ((33 ≤ c.toNat ∧ c.toNat ≤ 47) ∨ (58 ≤ c.toNat ∧ c.toNat ≤ 64) ∨
    (91 ≤ c.toNat ∧ c.toNat ≤ 96) ∨ (123 ≤ c.toNat ∧ c.toNat ≤ 126))

/-- Strip characters satisfying `p` from both ends (Python `str.strip(chars)`). -/
def stripChars (p : Char → Bool) (s : Str) : Str :=
  ((s.dropWhile p).reverse.dropWhile p).reverse

/-- Python `str.strip()` (whitespace from both ends). -/
def pyStrip (s : Str) : Str := stripChars isPySpace s

/-- Python `str.rstrip()` (whitespace from the right end). -/
def pyRStrip (s : Str) : Str := (s.reverse.dropWhile isPySpace).reverse

/-- One step (right fold) of splitting into maximal runs: characters
satisfying `flush` end the current run. -/
def runStep (flush : Char → Bool) (c : Char) (acc : Str × List Str) : Str × List Str :=
  if flush c then ([], if acc.1.isEmpty then acc.2 else acc.1 :: acc.2)
  else (c :: acc.1, acc.2)

/-- Python `str.split()` without argument: maximal nonempty runs of
non-whitespace characters. -/
def pySplitWs (s : Str) : List Str :=
  let fin := s.foldr (runStep isPySpace) ([], [])
  if fin.1.isEmpty then fin.2 else fin.1 :: fin.2

/-- The characters matched by the regex `[A-Za-z]`. -/
def isAsciiAlpha (c : Char) : Bool :=
  decide ((65 ≤ c.toNat ∧ c.toNat ≤ 90) ∨ (97 ≤ c.toNat ∧ c.toNat ≤ 122))

/-- Model of `_tokenize_alpha`: maximal runs of `[A-Za-z]` characters, lower-cased
(`_TOKEN_REGEX.finditer` + `.lower()`). -/
def tokenizeAlpha (s : Str) : List Str :=
  let fin := s.foldr (runStep (fun c => !isAsciiAlpha c)) ([], [])
  (if fin.1.isEmpty then fin.2 else fin.1 :: fin.2).map (fun t => t.map Char.toLower)

/-- Sentence-ending punctuation of `_SENTENCE_SPLIT_REGEX`. -/
def sentencePunct (c : Char) : Bool := decide (c = '.' ∨ c = '!' ∨ c = '?')

/-- Model of `re.split` with the pattern `(?<=[.!?])\s+`: the string is cut at every
maximal whitespace run whose immediately preceding character is `.`, `!`
or `?`; the whitespace of the cut is dropped. -/
def partStep (c : Char) (acc : Str × List Str) : Str × List Str :=
  if sentencePunct c && (match acc.1 with | f :: _ => isPySpace f | [] => false) then
    ([c], acc.1.dropWhile isPySpace :: acc.2)
  else (c :: acc.1, acc.2)

def splitParts (s : Str) : List Str :=
  let fin := s.foldr partStep ([], [])
  fin.1 :: fin.2

/-- Model of `_split_sentences`: strip, regex-split, keep fragments containing an
alphanumeric character, strip each fragment. -/
def splitSentences (text0 : Str) : List Str :=
  let text := pyStrip text0
  if text.isEmpty then []
  else ((splitParts text).filter (fun s => !s.isEmpty && s.any Char.isAlphanum)).map pyStrip

/-- The `_STOPWORDS` set of the source. -/
def stopwords : List Str :=
  (["a", "an", "the", "and", "or", "but", "if", "while", "as", "of", "in", "on", "for",
    "to", "from", "by", "with", "without", "at", "about", "into", "over", "after",
    "before", "between", "through", "during", "above", "below", "up", "down", "out",
    "off", "again", "further", "then", "once", "is", "am", "are", "was", "were", "be",
    "been", "being", "do", "does", "did", "doing", "have", "has", "had", "having",
    "he", "she", "it", "they", "them", "his", "her", "its", "their", "theirs", "you",
    "your", "yours", "i", "we", "our", "ours", "this", "that", "these", "those",
    "there", "here", "such", "can", "could", "should", "would", "may", "might",
    "must", "will", "shall", "not", "no", "nor", "only", "own", "same", "so", "than",
    "too", "very", "what", "which", "who", "whom", "where", "when", "why", "how"]
    : List String).map String.toList

/-- Model of `_sanitize_option`: collapse whitespace (`" ".join(text.split())`), then
strip surrounding punctuation and spaces. -/
def sanitizeOption (s : Str) : Str :=
  stripChars (fun c => isPyPunct c || c == ' ') (List.intercalate [' '] (pySplitWs s))

/-- The `Candidate` dataclass of the source. -/
structure Candidate where
  term : Str
  freq : Nat
  sentences : List Str
deriving DecidableEq, Inhabited

/-- Model of `_unique_preserve_order` with the `seen` set carried explicitly. -/
def uniqGo (seen : List Str) : List Str → List Str
  | [] => []
  | x :: xs => if x ∈ seen then uniqGo seen xs else x :: uniqGo (x :: seen) xs

/-- Model of `_unique_preserve_order`: first-occurrence deduplication. -/
def uniq (l : List Str) : List Str := uniqGo [] l

/-- Abstract deterministic random source (see the header comment): `stream k n`
is the k-th draw of `_randbelow n`; `k` counts the calls made so far. -/
structure RNG where
  stream : Nat → Nat → Nat
  k : Nat

/-- Model of `Random._randbelow n`: the next draw, always `< n` for `n > 0`
(CPython returns 0 for `n = 0`). -/
def RNG.randbelow (r : RNG) (n : Nat) : Nat × RNG :=
  (if n = 0 then 0 else r.stream r.k n % n, ⟨r.stream, r.k + 1⟩)

/-- Simultaneous `x[i], x[j] = x[j], x[i]` on a list (no-op when out of range,
which never happens in the calls below). -/
def listSwap (xs : List α) (i j : Nat) : List α :=
  match xs.get? i, xs.get? j with
  | some a, some b => (xs.set i b).set j a
  | _, _ => xs

/-- The swap loop of CPython `Random.shuffle`: for `i` from `xs.length - 1`
down to `1`, draw `j = _randbelow (i+1)` and swap positions `i` and `j`.
The argument `i` is the current index. -/
def shuffleFrom (xs : List α) (r : RNG) : Nat → List α × RNG
  | 0 => (xs, r)
  | i + 1 =>
    let (j, r1) := r.randbelow (i + 2)
    shuffleFrom (listSwap xs (i + 1) j) r1 i

/-- CPython `Random.shuffle`. -/
def RNG.shuffle (r : RNG) (xs : List α) : List α × RNG :=
  shuffleFrom xs r (xs.length - 1)

/-- CPython `Random.choice` on a list of strings
(`seq[self._randbelow(len(seq))]`; the empty case raises in Python and is
unreachable in the source paths). -/
def RNG.choiceS (r : RNG) (xs : List Str) : Str × RNG :=
  let (i, r1) := r.randbelow xs.length
  (xs.getD i [], r1)

/-- One `freq[t] = freq.get(t, 0) + 1` step on an insertion-ordered dict,
modelled as an association list (Python dicts preserve insertion order). -/
def bumpFreq (d : List (Str × Nat)) (t : Str) : List (Str × Nat) :=
  if d.any (fun p => p.1 == t) then
    d.map (fun p => if p.1 == t then (p.1, p.2 + 1) else p)
  else d ++ [(t, 1)]

/-- The example-recording step of `_collect_candidates`: first occurrence
creates `[sent]`, later occurrences append `sent` while fewer than 3 are
recorded. -/
def addExample (e : List (Str × List Str)) (t : Str) (sent : Str) :
    List (Str × List Str) :=
  if e.any (fun p => p.1 == t) then
    e.map (fun p => if p.1 == t && p.2.length < 3 then (p.1, p.2 ++ [sent]) else p)
  else e ++ [(t, [sent])]

/-- Model of `examples.get(k, [])`. -/
def lookupEx (e : List (Str × List Str)) (t : Str) : List Str :=
  ((e.find? (fun p => p.1 == t)).map (fun p => p.2)).getD []

/-- Whether a token survives the filter of `_collect_candidates`
(`t in _STOPWORDS or len(t) <= 2` skips it). -/
def keepToken (t : Str) : Bool := !(stopwords.contains t) && 2 < t.length

/-- Sort key order of `candidates.sort(key=lambda c: (-c.freq, c.term))`:
frequency descending, then term ascending (code-point lexicographic). -/
def strLt : Str → Str → Bool
  | [], [] => false
  | [], _ :: _ => true
  | _ :: _, [] => false
  | a :: as, b :: bs =>
    if a.toNat < b.toNat then true
    else if b.toNat < a.toNat then false
    else strLt as bs

def strLe (a b : Str) : Bool := !(strLt b a)

def candRel (a b : Candidate) : Prop :=
  b.freq < a.freq ∨ (a.freq = b.freq ∧ strLe a.term b.term = true)

instance : DecidableRel candRel := fun a b => by
  unfold candRel; infer_instance

/-- Model of `_collect_candidates`: frequency and example collection over the
sentences, then sort by (frequency desc, term asc).  The sort key is
injective (terms are distinct dict keys), so any correct sort produces the
same list as Python `list.sort`. -/
def tokStep (sent : Str) (st : List (Str × Nat) × List (Str × List Str)) (t : Str) :
    List (Str × Nat) × List (Str × List Str) :=
  if keepToken t then (bumpFreq st.1 t, addExample st.2 t sent) else st

/-- Processing of one sentence in `_collect_candidates`. -/
def candStep (st : List (Str × Nat) × List (Str × List Str)) (sent : Str) :
    List (Str × Nat) × List (Str × List Str) :=
  (tokenizeAlpha sent).foldl (tokStep sent) st

def collectCandidates (sents : List Str) : List Candidate :=
  let fin := sents.foldl candStep ([], [])
  let cands := fin.1.map (fun p => Candidate.mk p.1 p.2 (lookupEx fin.2 p.1))
  List.insertionSort candRel cands

/-- Sort order of the fallback `sorted(freq.items(), key=lambda kv: (-kv[1], kv[0]))`. -/
def kvRel (a b : Str × Nat) : Prop :=
  b.2 < a.2 ∨ (a.2 = b.2 ∧ strLe a.1 b.1 = true)

instance : DecidableRel kvRel := fun a b => by
  unfold kvRel; infer_instance

/-- The fallback candidate construction of `generate_quiz_from_notes`
(lines 201-213): tokenize the whole notes, filter, fall back to
`Concept1`..`Concept11`, count, sort, keep the top 12, each with the whole
notes as sole example sentence. -/
def fallbackCandidates (notes : Str) : List Candidate :=
  let tokens0 := (tokenizeAlpha notes).filter keepToken
  let tokens := if tokens0.isEmpty then
      (["Concept1", "Concept2", "Concept3", "Concept4", "Concept5", "Concept6",
        "Concept7", "Concept8", "Concept9", "Concept10", "Concept11"]
        : List String).map String.toList
    else tokens0
  let freq := tokens.foldl (fun d t => bumpFreq d t) []
  let sortedTokens := List.insertionSort kvRel freq
  (sortedTokens.take 12).map (fun p => Candidate.mk p.1 p.2 [notes])

/-- Word characters for the regex word boundary (ASCII part of the `\w` class). -/
def isWordChar (c : Char) : Bool := c.isAlphanum || c == '_'

/-- Case-insensitive literal prefix test (`re.escape(term)` with `re.IGNORECASE`). -/
def ciHasPrefixAt (pat s : Str) : Bool :=
  (s.take pat.length).map Char.toLower == pat.map Char.toLower

/-- The blank marker inserted by `_make_fill_in_question`. -/
def blankMarker : Str := "_____".toList

/-- Whether the first character of the remaining text is a word character
(edge of the string counts as non-word). -/
def headIsWord : Str → Bool
  | [] => false
  | c :: _ => isWordChar c

/-- Scanner for `re.sub(rf"\b{re.escape(term)}\b", "_____", sentence, re.IGNORECASE)`:
left-to-right non-overlapping replacement; `prevW` records whether the
character just before the cursor in the original string is a word
character. -/
def rwGo (term : Str) : Nat → Bool → Str → Str
  | 0, _, s => s
  | fuel + 1, prevW, s =>
    match s with
    | [] => []
    | c :: cs =>
      if term ≠ [] ∧ (ciHasPrefixAt term (c :: cs)
          && (prevW != headIsWord (c :: cs))
          && (headIsWord ((c :: cs).take term.length).reverse
              != headIsWord ((c :: cs).drop term.length))) = true then
        blankMarker ++ rwGo term fuel (headIsWord ((c :: cs).take term.length).reverse)
          ((c :: cs).drop term.length)
      else c :: rwGo term fuel (isWordChar c) cs

/-- Model of `pattern.sub("_____", sentence)` for the whole-word case-insensitive
pattern built from `term` (the `term = []` guard is unreachable in
the source, where terms are nonempty).  The scanner consumes at least one
character per step, so fuel `s.length` keeps it equal to the unbounded
scan. -/
def replaceWord (term s : Str) : Str := rwGo term s.length false s

/-- The 220-character truncation used by both question builders
(`blanks[:217].rstrip() + "..."`). -/
def truncate220 (s : Str) : Str :=
  if 220 < s.length then pyRStrip (s.take 217) ++ "...".toList else s

/-- A single-quote character, used in the two question templates. -/
def sq : Char := '\''

/-- Model of `_make_fill_in_question`. -/
def makeFillIn (term sentence : Str) : Str × Str :=
  let blanks := truncate220 (replaceWord term sentence)
  ("In the context of the notes, which term best completes the blank: ".toList
    ++ [sq] ++ blanks ++ [sq] ++ "?".toList, term)

/-- Model of `_make_definition_like_question`. -/
def makeDefLike (term support : Str) : Str × Str :=
  let snippet := truncate220 (pyStrip support)
  ("Which term is most closely described by: ".toList
    ++ [sq] ++ snippet ++ [sq] ++ "?".toList, term)

/-- Python `str.capitalize()`: first character upper-cased, the rest
lower-cased (ASCII behaviour). -/
def pyCapitalize : Str → Str
  | [] => []
  | c :: cs => c.toUpper :: cs.map Char.toLower

/-- Model of `set.add` on an insertion-ordered model of a Python set of strings. -/
def insertSet (vs : List Str) (x : Str) : List Str :=
  if vs.contains x then vs else vs ++ [x]

def padSuffixes : List Str := (["", "s", "ed", "ing"] : List String).map String.toList

def synthSuffixes : List Str :=
  (["", "s", "ed", "ing", "ity", "ness"] : List String).map String.toList

def shortSuffixes : List Str := (["1", "2", "3", "x"] : List String).map String.toList

/-- The variant-synthesis `while` loop of `_pick_distractors` (lines 93-102).
Its exit depends on the drawn suffixes, so it carries fuel; `none` means the
fuel ran out with the loop condition still true. -/
def variantsStep (base : Str) (vs : List Str) (r : RNG) : List Str × RNG :=
  if 3 < base.length then
    let va := insertSet vs base.reverse
    let c := r.choiceS padSuffixes
    let vb := insertSet va (base ++ c.1)
    (insertSet vb (pyCapitalize base), c.2)
  else
    let c := r.choiceS shortSuffixes
    (insertSet vs (base ++ c.1), c.2)

def variantsLoop (n : Nat) (base : Str) : Nat → List Str → RNG → Option (List Str × RNG)
  | 0, vs, r => if vs.length < n then none else some (vs, r)
  | fuel + 1, vs, r =>
    if vs.length < n then
      let step := variantsStep base vs r
      if 10 * n < step.1.length then some (step.1, step.2)
      else variantsLoop n base fuel step.1 step.2
    else some (vs, r)

/-- Model of `_pick_distractors`. -/
def pickDistractors (allTerms : List Str) (correct : Str) (r : RNG) (n : Nat)
    (fuel : Nat) : Option (List Str × RNG) :=
  let pool := allTerms.filter (fun t => t ≠ correct)
  if pool.length < n then
    match variantsLoop n correct fuel (uniq pool) r with
    | none => none
    | some (vs, r1) =>
      let sh := r1.shuffle vs
      some ((sh.1.take n : List Str), sh.2)
  else
    let sh := r.shuffle pool
    some (sh.1.take n, sh.2)

/-- The first option-padding loop (lines 244-245).  Each iteration appends
one element, so 4 iterations of fuel make it equal to the unbounded
`while len(options) < 4` loop. -/
def padLoop1 (correct : Str) : Nat → List Str → RNG → List Str × RNG
  | 0, opts, r => (opts, r)
  | g + 1, opts, r =>
    if opts.length < 4 then
      let c := r.choiceS padSuffixes
      padLoop1 correct g (opts ++ [sanitizeOption (correct ++ c.1)]) c.2
    else (opts, r)

/-- The dedup re-padding loop (lines 250-254).  It appends only when the
synthesised option is absent, hence may not make progress; it carries fuel
and returns `none` when the fuel runs out with fewer than 4 options. -/
def rePadLoop (correct : Str) : Nat → List Str → RNG → Option (List Str × RNG)
  | 0, opts, r => if opts.length < 4 then none else some (opts, r)
  | fuel + 1, opts, r =>
    if opts.length < 4 then
      let c := r.choiceS synthSuffixes
      let synth := correct ++ c.1
      rePadLoop correct fuel (if opts.contains synth then opts else opts ++ [synth]) c.2
    else some (opts, r)

/-- Question record of the produced quiz structure. -/
structure Question where
  id : Str
  question : Str
  options : List Str
  correct_index : Nat
deriving DecidableEq, Inhabited

/-- Quiz record of the produced quiz structure. -/
structure Quiz where
  id : Str
  title : Str
  created_at : Str
  source_notes_hash : Str
  questions : List Question
deriving DecidableEq, Inhabited

/-- Python `list.index`: position of the first occurrence (the source only
calls it on lists containing the element). -/
def pyIndex (x : Str) : List Str → Nat
  | [] => 0
  | y :: ys => if y = x then 0 else pyIndex x ys + 1

/-- Lines 239-260 of `generate_quiz_from_notes`: distractor selection,
sanitisation, first padding, slice to 4, dedup, re-padding, index shuffle,
and the correct-index computation with its defensive default 0. -/
def assembleOptions (allTerms : List Str) (correct : Str) (r : RNG) (fuel : Nat) :
    Option (List Str × Nat × RNG) :=
  match pickDistractors allTerms correct r 3 fuel with
  | none => none
  | some (ds, r2) =>
    let rawOptions := correct :: ds
    let options0 :=
      (rawOptions.filter (fun o => !o.isEmpty && !(pyStrip o).isEmpty)).map sanitizeOption
    let p1 := padLoop1 correct 4 options0 r2
    let options2 := uniq (p1.1.take 4)
    match rePadLoop correct fuel options2 p1.2 with
    | none => none
    | some (options3, r4) =>
      let sh := r4.shuffle (List.range options3.length)
      let shuffled := sh.1.map (fun i => options3.getD i [])
      let ci := if correct ∈ shuffled then pyIndex correct shuffled else 0
      some (shuffled, ci, sh.2)

/-- The body of the per-candidate loop of `generate_quiz_from_notes`
(lines 226-269) for the candidate at 1-based position `idx`. -/
def buildOneQuestion (allTerms : List Str) (sentences : List Str) (notes : Str)
    (fuel : Nat) (idx : Nat) (cand : Candidate) (r : RNG) : Option (Question × RNG) :=
  let sup :=
    if !cand.sentences.isEmpty then r.choiceS cand.sentences
    else if !sentences.isEmpty then r.choiceS sentences
    else (notes, r)
  let qc := if idx % 2 = 1 then makeFillIn cand.term sup.1 else makeDefLike cand.term sup.1
  match assembleOptions allTerms qc.2 sup.2 fuel with
  | none => none
  | some (shuffled, ci, r5) =>
    some (⟨"q-".toList ++ Nat.toDigits 10 idx, qc.1, shuffled, ci⟩, r5)

/-- The `for idx, cand in enumerate(picked, start=1)` loop. -/
def buildQuestions (allTerms : List Str) (sentences : List Str) (notes : Str)
    (fuel : Nat) : List Candidate → Nat → RNG → Option (List Question × RNG)
  | [], _, r => some ([], r)
  | c :: cs, idx, r =>
    match buildOneQuestion allTerms sentences notes fuel idx c r with
    | none => none
    | some (q, r1) =>
      match buildQuestions allTerms sentences notes fuel cs (idx + 1) r1 with
      | none => none
      | some (qs, r2) => some (q :: qs, r2)

/-- Value of a hex digit (`int(..., 16)`; non-hex characters cannot occur on
real digests). -/
def hexVal (c : Char) : Nat :=
  if 48 ≤ c.toNat ∧ c.toNat ≤ 57 then c.toNat - 48
  else if 97 ≤ c.toNat ∧ c.toNat ≤ 102 then c.toNat - 87
  else if 65 ≤ c.toNat ∧ c.toNat ≤ 70 then c.toNat - 55
  else 0

/-- Model of `_seed_from_hash`: `int(hex_digest[:16], 16)`. -/
def seedFromHash (h : Str) : Nat := (h.take 16).foldl (fun a c => a * 16 + hexVal c) 0

/-- Byte `i` of `bytes.fromhex(src_hash[:16])`. -/
def hexByte (h : Str) (i : Nat) : Nat :=
  16 * hexVal (h.getD (2 * i) '0') + hexVal (h.getD (2 * i + 1) '0')

/-- Zero left-padding of fixed-width decimal fields (`f"{y:04d}"` etc.). -/
def pad0 (w : Nat) (s : Str) : Str := List.replicate (w - s.length) '0' ++ s

/-- The deterministic pseudo timestamp (lines 280-287). -/
def createdAtOf (h : Str) : Str :=
  let y := 2000 + hexByte h 0 % 30
  let mo := 1 + hexByte h 1 % 12
  let d := 1 + hexByte h 2 % 28
  let hh := hexByte h 3 % 24
  let mm := hexByte h 4 % 60
  let ss := hexByte h 5 % 60
  pad0 4 (Nat.toDigits 10 y) ++ "-".toList ++ pad0 2 (Nat.toDigits 10 mo) ++ "-".toList
    ++ pad0 2 (Nat.toDigits 10 d) ++ "T".toList ++ pad0 2 (Nat.toDigits 10 hh)
    ++ ":".toList ++ pad0 2 (Nat.toDigits 10 mm) ++ ":".toList
    ++ pad0 2 (Nat.toDigits 10 ss) ++ "Z".toList

/-- Model of `notes.strip()` followed by `_split_sentences` (which strips again,
idempotently). -/
def sentencesOf (s : Str) : List Str := splitSentences (pyStrip s)

/-- The candidates before the fallback (line 192). -/
def candidates0Of (s : Str) : List Candidate := collectCandidates (sentencesOf s)

/-- Lines 194-198: `num_questions`. -/
def numQuestionsOf (s : Str) : Nat :=
  let n := (candidates0Of s).length
  let desired := min (max n 5) 8
  if n ≠ 0 then max 5 (min desired n) else 5

/-- The candidate list after the fallback of lines 200-213. -/
def candidatesOf (s : Str) : List Candidate :=
  if (candidates0Of s).isEmpty then fallbackCandidates (pyStrip s) else candidates0Of s

/-- Lines 216-217: deduplicated pool of all candidate terms. -/
def allTermsOf (s : Str) : List Str := uniq ((candidatesOf s).map Candidate.term)

/-- Model of `_stable_hash` applied as in line 187 (to the stripped notes). -/
def srcHashOf (sha : Str → Str) (s : Str) : Str := sha (pyStrip s)

/-- Line 188: the seeded generator, as an abstract draw stream. -/
def rng0Of (sha : Str → Str) (mt : Nat → Nat → Nat → Nat) (s : Str) : RNG :=
  ⟨mt (seedFromHash (srcHashOf sha s)), 0⟩

/-- Lines 220-221: `picked = candidates[:]; rng.shuffle(picked)`. -/
def pickPair (sha : Str → Str) (mt : Nat → Nat → Nat → Nat) (s : Str) :
    List Candidate × RNG :=
  (rng0Of sha mt s).shuffle (candidatesOf s)

/-- Line 222: `picked = picked[:num_questions]`. -/
def pickedOf (sha : Str → Str) (mt : Nat → Nat → Nat → Nat) (s : Str) : List Candidate :=
  (pickPair sha mt s).1.take (numQuestionsOf s)

/-- Line 289: `quiz_id`. -/
def quizIdOf (sha : Str → Str) (s : Str) : Str :=
  "quiz-".toList ++ (srcHashOf sha s).take 12

/-- Lines 274-276: title derived from the top two candidates. -/
def autoTitle (cands : List Candidate) : Str :=
  let top := (cands.take 2).map (fun c => pyCapitalize c.term)
  "Quiz: ".toList ++
    (if !top.isEmpty then List.intercalate " & ".toList top else "Study Notes".toList)

/-- Lines 271-276: the full title derivation (`if title` is Python
truthiness, so `some []` also falls back to the derived title). -/
def titleOf (title : Option Str) (cands : List Candidate) : Str :=
  match title with
  | some t => if !t.isEmpty && !(pyStrip t).isEmpty then pyStrip t else autoTitle cands
  | none => autoTitle cands

/-- Model of `generate_quiz_from_notes`. -/
def generateQuizFromNotes (sha : Str → Str) (mt : Nat → Nat → Nat → Nat) (fuel : Nat)
    (notes0 : Str) (title : Option Str) : Option Quiz :=
  match buildQuestions (allTermsOf notes0) (sentencesOf notes0) (pyStrip notes0) fuel
      (pickedOf sha mt notes0) 1 (pickPair sha mt notes0).2 with
  | none => none
  | some (qs, _) =>
    some ⟨quizIdOf sha notes0, titleOf title (candidatesOf notes0),
      createdAtOf (srcHashOf sha notes0), srcHashOf sha notes0, qs⟩

/-- Result of the `/notes` boundary handler. -/
inductive SubmitResult where
  | invalidInput : SubmitResult
  | quiz : Quiz → SubmitResult
  | fuelOut : SubmitResult
deriving DecidableEq

/-- Model of `submit_notes` of `src/api/main.py` (lines 91-95), storage elided: empty
or whitespace-only notes are rejected with a 400 `InvalidInput` error before
the generator runs; `fuelOut` stands for a run of the generator whose
RNG-dependent loops did not converge within the fuel. -/
def submitNotes (sha : Str → Str) (mt : Nat → Nat → Nat → Nat) (fuel : Nat)
    (notes : Str) (title : Option Str) : SubmitResult :=
  if (pyStrip notes).isEmpty then .invalidInput
  else
    match generateQuizFromNotes sha mt fuel (pyStrip notes) title with
    | some q => .quiz q
    | none => .fuelOut

/-! ### Character-class lemmas -/

/-- Nonempty and entirely alphanumeric: the shape of every string that can
become a quiz option (candidate terms, placeholder terms and their
transforms). -/
def CleanStr (s : Str) : Prop := s ≠ [] ∧ s.all Char.isAlphanum = true

instance : DecidablePred CleanStr := fun s => by unfold CleanStr; infer_instance

theorem alnum_ranges {c : Char} (h : c.isAlphanum = true) :
    (48 ≤ c.toNat ∧ c.toNat ≤ 57) ∨ (65 ≤ c.toNat ∧ c.toNat ≤ 90) ∨
      (97 ≤ c.toNat ∧ c.toNat ≤ 122) := by
  simp only [Char.isAlphanum, Char.isAlpha, Char.isUpper, Char.isLower, Char.isDigit,
    Bool.or_eq_true, Bool.and_eq_true, decide_eq_true_eq, ge_iff_le] at h
  rcases h with (⟨a, b⟩ | ⟨a, b⟩) | ⟨a, b⟩
  · exact Or.inr (Or.inl ⟨UInt32.le_toNat_of_le (by decide) a, UInt32.toNat_le_of_le (by decide) b⟩)
  · exact Or.inr (Or.inr ⟨UInt32.le_toNat_of_le (by decide) a, UInt32.toNat_le_of_le (by decide) b⟩)
  · exact Or.inl ⟨UInt32.le_toNat_of_le (by decide) a, UInt32.toNat_le_of_le (by decide) b⟩

theorem uint32_le_val {c : Char} {m : Nat} (hm : ((OfNat.ofNat m : UInt32)).toBitVec.toNat = m)
    (h : m ≤ c.toNat) : (OfNat.ofNat m : UInt32) ≤ c.val := by
  rw [UInt32.le_def, BitVec.le_def, hm]; exact h

theorem uint32_val_le {c : Char} {m : Nat} (hm : ((OfNat.ofNat m : UInt32)).toBitVec.toNat = m)
    (h : c.toNat ≤ m) : c.val ≤ (OfNat.ofNat m : UInt32) := by
  rw [UInt32.le_def, BitVec.le_def, hm]; exact h

theorem alnum_of_ranges {c : Char}
    (h : (48 ≤ c.toNat ∧ c.toNat ≤ 57) ∨ (65 ≤ c.toNat ∧ c.toNat ≤ 90) ∨
      (97 ≤ c.toNat ∧ c.toNat ≤ 122)) : c.isAlphanum = true := by
  simp only [Char.isAlphanum, Char.isAlpha, Char.isUpper, Char.isLower, Char.isDigit,
    Bool.or_eq_true, Bool.and_eq_true, decide_eq_true_eq, ge_iff_le]
  rcases h with ⟨a, b⟩ | ⟨a, b⟩ | ⟨a, b⟩
  · exact Or.inr ⟨uint32_le_val (by decide) a, uint32_val_le (by decide) b⟩
  · exact Or.inl (Or.inl ⟨uint32_le_val (by decide) a, uint32_val_le (by decide) b⟩)
  · exact Or.inl (Or.inr ⟨uint32_le_val (by decide) a, uint32_val_le (by decide) b⟩)

theorem toNat_eq_32_of_eq_space {c : Char} (h : c = ' ') : c.toNat = 32 := by
  subst h; decide

theorem alnum_not_pySpace {c : Char} (h : c.isAlphanum = true) : isPySpace c = false := by
  rcases alnum_ranges h with ⟨a, b⟩ | ⟨a, b⟩ | ⟨a, b⟩ <;>
  · simp only [isPySpace, decide_eq_false_iff_not, not_or]
    refine ⟨fun hc => ?_, by omega, by omega, by omega, by omega, by omega⟩
    have := toNat_eq_32_of_eq_space hc; omega

theorem alnum_not_pyPunct {c : Char} (h : c.isAlphanum = true) : isPyPunct c = false := by
  rcases alnum_ranges h with ⟨a, b⟩ | ⟨a, b⟩ | ⟨a, b⟩ <;>
  · simp only [isPyPunct, decide_eq_false_iff_not, not_or]
    omega

theorem alnum_ne_space {c : Char} (h : c.isAlphanum = true) : (c == ' ') = false := by
  rcases alnum_ranges h with ⟨a, b⟩ | ⟨a, b⟩ | ⟨a, b⟩ <;>
  · rw [beq_eq_false_iff_ne]
    intro hc
    have := toNat_eq_32_of_eq_space hc; omega

theorem toNat_toLower (c : Char) :
    (c.toLower).toNat = if 65 ≤ c.toNat ∧ c.toNat ≤ 90 then c.toNat + 32 else c.toNat := by
  unfold Char.toLower
  split
  · rename_i hc
    rw [if_pos (by exact hc)]
    unfold Char.ofNat
    rw [dif_pos]
    · rfl
    · left
      omega
  · rename_i hc
    rw [if_neg (by exact hc)]

theorem toNat_toUpper (c : Char) :
    (c.toUpper).toNat = if 97 ≤ c.toNat ∧ c.toNat ≤ 122 then c.toNat - 32 else c.toNat := by
  unfold Char.toUpper
  split
  · rename_i hc
    rw [if_pos (by exact hc)]
    unfold Char.ofNat
    rw [dif_pos]
    · rfl
    · left
      omega
  · rename_i hc
    rw [if_neg (by exact hc)]

theorem alnum_toLower {c : Char} (h : c.isAlphanum = true) : (c.toLower).isAlphanum = true := by
  apply alnum_of_ranges
  rw [toNat_toLower]
  rcases alnum_ranges h with ⟨a, b⟩ | ⟨a, b⟩ | ⟨a, b⟩ <;> split <;> omega

theorem alnum_toUpper {c : Char} (h : c.isAlphanum = true) : (c.toUpper).isAlphanum = true := by
  apply alnum_of_ranges
  rw [toNat_toUpper]
  rcases alnum_ranges h with ⟨a, b⟩ | ⟨a, b⟩ | ⟨a, b⟩ <;> split <;> omega

theorem asciiAlpha_toLower_alnum {c : Char} (h : isAsciiAlpha c = true) :
    (c.toLower).isAlphanum = true := by
  simp only [isAsciiAlpha, decide_eq_true_eq] at h
  apply alnum_of_ranges
  rw [toNat_toLower]
  rcases h with ⟨a, b⟩ | ⟨a, b⟩ <;> split <;> omega

/-! ### Clean strings -/

theorem cleanStr_append {a b : Str} (ha : CleanStr a) (hb : b.all Char.isAlphanum = true) :
    CleanStr (a ++ b) := by
  obtain ⟨h1, h2⟩ := ha
  refine ⟨by simp [h1], ?_⟩
  simp only [List.all_append, h2, hb, Bool.and_self]

theorem cleanStr_reverse {a : Str} (ha : CleanStr a) : CleanStr a.reverse := by
  obtain ⟨h1, h2⟩ := ha
  refine ⟨by simpa using h1, ?_⟩
  simpa using h2

theorem cleanStr_capitalize {a : Str} (ha : CleanStr a) : CleanStr (pyCapitalize a) := by
  obtain ⟨h1, h2⟩ := ha
  cases a with
  | nil => exact absurd rfl h1
  | cons c cs =>
    simp only [List.all_cons, Bool.and_eq_true] at h2
    refine ⟨by simp [pyCapitalize], ?_⟩
    simp only [pyCapitalize, List.all_cons, List.all_map, Bool.and_eq_true]
    refine ⟨alnum_toUpper h2.1, ?_⟩
    rw [List.all_eq_true] at h2 ⊢
    intro x hx
    exact alnum_toLower (h2.2 x hx)

theorem dropWhile_all_false {p : Char → Bool} {s : Str}
    (h : ∀ c ∈ s, p c = false) : s.dropWhile p = s := by
  cases s with
  | nil => rfl
  | cons c cs =>
    rw [List.dropWhile_cons, h c (by simp)]
    simp

theorem stripChars_all_false {p : Char → Bool} {s : Str}
    (h : ∀ c ∈ s, p c = false) : stripChars p s = s := by
  unfold stripChars
  rw [dropWhile_all_false h, dropWhile_all_false (fun c hc => h c (by simpa using hc)),
    List.reverse_reverse]

theorem pyStrip_clean {s : Str} (hs : s.all Char.isAlphanum = true) : pyStrip s = s := by
  unfold pyStrip
  apply stripChars_all_false
  intro c hc
  rw [List.all_eq_true] at hs
  exact alnum_not_pySpace (hs c hc)

theorem foldr_runStep_nospace {s : Str}
    (h : ∀ c ∈ s, isPySpace c = false) (hne : s ≠ []) :
    s.foldr (runStep isPySpace) ([], []) = (s, []) := by
  induction s with
  | nil => exact absurd rfl hne
  | cons c cs ih =>
    rcases eq_or_ne cs [] with hcs | hcs
    · subst hcs
      simp [runStep, h c (by simp)]
    · rw [List.foldr_cons, ih (fun x hx => h x (by simp [hx])) hcs]
      simp [runStep, h c (by simp)]

theorem pySplitWs_clean {s : Str} (h1 : s ≠ []) (h2 : s.all Char.isAlphanum = true) :
    pySplitWs s = [s] := by
  unfold pySplitWs
  rw [List.all_eq_true] at h2
  rw [foldr_runStep_nospace (fun c hc => alnum_not_pySpace (h2 c hc)) h1]
  simp [h1]

theorem sanitize_clean_id {s : Str} (hs : CleanStr s) : sanitizeOption s = s := by
  obtain ⟨h1, h2⟩ := hs
  unfold sanitizeOption
  rw [pySplitWs_clean h1 h2]
  have hj : List.intercalate [' '] [s] = s := by
    simp [List.intercalate]
  rw [hj]
  apply stripChars_all_false
  intro c hc
  rw [List.all_eq_true] at h2
  have h3 := h2 c hc
  simp [alnum_not_pyPunct h3, alnum_ne_space h3]

theorem cleanStr_pyStrip_ne {s : Str} (hs : CleanStr s) : pyStrip s ≠ [] := by
  rw [pyStrip_clean hs.2]; exact hs.1

/-! ### Shuffle is a permutation -/

theorem cons_set_perm {α : Type _} (t : List α) :
    ∀ (m : Nat) (x b : α), t.get? m = some b → List.Perm (b :: t.set m x) (x :: t) := by
  induction t with
  | nil => intro m x b h; simp at h
  | cons c t ih =>
    intro m x b h
    cases m with
    | zero =>
      simp only [List.get?_cons_zero, Option.some.injEq] at h
      subst h
      exact List.Perm.swap x c t
    | succ k =>
      simp only [List.get?_cons_succ] at h
      have h1 : List.Perm (b :: c :: t.set k x) (c :: b :: t.set k x) := List.Perm.swap c b _
      have h2 : List.Perm (c :: b :: t.set k x) (c :: x :: t) := (ih k x b h).cons c
      have h3 : List.Perm (c :: x :: t) (x :: c :: t) := List.Perm.swap x c t
      simpa using (h1.trans h2).trans h3

theorem set_set_perm {α : Type _} :
    ∀ (xs : List α) (i j : Nat) (a b : α), xs.get? i = some a → xs.get? j = some b →
      List.Perm ((xs.set i b).set j a) xs := by
  intro xs
  induction xs with
  | nil => intro i j a b h; simp at h
  | cons x t ih =>
    intro i j a b hi hj
    cases i with
    | zero =>
      simp only [List.get?_cons_zero, Option.some.injEq] at hi
      subst hi
      cases j with
      | zero =>
        simp only [List.get?_cons_zero, Option.some.injEq] at hj
        subst hj
        simp
      | succ m =>
        simp only [List.get?_cons_succ] at hj
        simpa using cons_set_perm t m x b hj
    | succ m =>
      simp only [List.get?_cons_succ] at hi
      cases j with
      | zero =>
        simp only [List.get?_cons_zero, Option.some.injEq] at hj
        subst hj
        simpa using cons_set_perm t m x a hi
      | succ l =>
        simp only [List.get?_cons_succ] at hj
        simpa using (ih m l a b hi hj).cons x

theorem listSwap_perm {α : Type _} (xs : List α) (i j : Nat) : List.Perm (listSwap xs i j) xs := by
  unfold listSwap
  cases hi : xs.get? i with
  | none => exact List.Perm.refl xs
  | some a =>
    cases hj : xs.get? j with
    | none => exact List.Perm.refl xs
    | some b => exact set_set_perm xs i j a b hi hj

theorem shuffleFrom_perm {α : Type _} :
    ∀ (i : Nat) (xs : List α) (r : RNG), List.Perm (shuffleFrom xs r i).1 xs := by
  intro i
  induction i with
  | zero => intro xs r; exact List.Perm.refl xs
  | succ m ih =>
    intro xs r
    rw [shuffleFrom]
    exact (ih _ _).trans (listSwap_perm xs (m + 1) _)

theorem shuffle_perm {α : Type _} (r : RNG) (xs : List α) : List.Perm (r.shuffle xs).1 xs :=
  shuffleFrom_perm _ xs r

theorem shuffle_length {α : Type _} (r : RNG) (xs : List α) :
    (r.shuffle xs).1.length = xs.length :=
  (shuffle_perm r xs).length_eq

theorem map_getD_range {α : Type _} (d : α) :
    ∀ (xs : List α), (List.range xs.length).map (fun i => xs.getD i d) = xs := by
  intro xs
  apply List.ext_getElem
  · simp
  · intro i h1 h2
    simp only [List.getElem_map, List.getElem_range]
    rw [List.getD_eq_getElem]

/-- The shuffled option list of lines 257-259 is a permutation of the
pre-shuffle options. -/
theorem shuffledOptions_perm (r : RNG) (opts : List Str) :
    List.Perm ((r.shuffle (List.range opts.length)).1.map (fun i => opts.getD i [])) opts := by
  have h1 : List.Perm (r.shuffle (List.range opts.length)).1 (List.range opts.length) :=
    shuffle_perm r _
  have h2 := h1.map (fun i => opts.getD i [])
  rw [map_getD_range] at h2
  exact h2

/-! ### Deduplication and set-insertion lemmas -/

theorem mem_uniqGo {a : Str} :
    ∀ (l seen : List Str), a ∈ uniqGo seen l ↔ a ∈ l ∧ a ∉ seen := by
  intro l
  induction l with
  | nil => intro seen; simp [uniqGo]
  | cons x xs ih =>
    intro seen
    unfold uniqGo
    split
    · rename_i hx
      rw [ih seen]
      constructor
      · rintro ⟨h1, h2⟩
        exact ⟨by simp [h1], h2⟩
      · rintro ⟨h1, h2⟩
        rcases List.mem_cons.mp h1 with rfl | h3
        · exact absurd hx h2
        · exact ⟨h3, h2⟩
    · rename_i hx
      rcases eq_or_ne a x with rfl | hax
      · simp [hx]
      · simp only [List.mem_cons, hax, false_or]
        rw [ih (x :: seen)]
        simp [hax]

theorem mem_uniq (a : Str) : ∀ (l : List Str), a ∈ uniq l ↔ a ∈ l := by
  intro l
  unfold uniq
  rw [mem_uniqGo]
  simp

theorem nodup_uniqGo : ∀ (l seen : List Str), (uniqGo seen l).Nodup := by
  intro l
  induction l with
  | nil => intro seen; simp [uniqGo]
  | cons x xs ih =>
    intro seen
    unfold uniqGo
    split
    · exact ih seen
    · refine List.nodup_cons.mpr ⟨?_, ih (x :: seen)⟩
      rw [mem_uniqGo]
      simp

theorem nodup_uniq (l : List Str) : (uniq l).Nodup := nodup_uniqGo l []

theorem length_uniqGo_le : ∀ (l seen : List Str), (uniqGo seen l).length ≤ l.length := by
  intro l
  induction l with
  | nil => intro seen; simp [uniqGo]
  | cons x xs ih =>
    intro seen
    unfold uniqGo
    split
    · exact Nat.le_succ_of_le (ih seen)
    · simpa using ih (x :: seen)

theorem length_uniq_le (l : List Str) : (uniq l).length ≤ l.length := length_uniqGo_le l []

theorem mem_insertSet {vs : List Str} {x e : Str} (h : e ∈ insertSet vs x) :
    e ∈ vs ∨ e = x := by
  unfold insertSet at h
  split at h
  · exact Or.inl h
  · rcases List.mem_append.mp h with h1 | h1
    · exact Or.inl h1
    · simp at h1
      exact Or.inr h1

theorem getD_all {l : List Str} (hl : ∀ s ∈ l, s.all Char.isAlphanum = true) (i : Nat) :
    ((l.getD i []).all Char.isAlphanum) = true := by
  rcases Nat.lt_or_ge i l.length with h | h
  · rw [List.getD_eq_getElem l [] h]
    exact hl _ (List.getElem_mem h)
  · rw [List.getD_eq_default l [] h]
    rfl

theorem padSuffixes_all : ∀ s ∈ padSuffixes, s.all Char.isAlphanum = true := by decide

theorem synthSuffixes_all : ∀ s ∈ synthSuffixes, s.all Char.isAlphanum = true := by decide

theorem shortSuffixes_all : ∀ s ∈ shortSuffixes, s.all Char.isAlphanum = true := by decide

/-! ### Loop invariants -/

theorem variantsStep_clean {base : Str} (hb : CleanStr base) {vs : List Str} (r : RNG)
    (hvs : ∀ e ∈ vs, CleanStr e) : ∀ e ∈ (variantsStep base vs r).1, CleanStr e := by
  intro e he
  unfold variantsStep at he
  split at he
  · simp only at he
    rcases mem_insertSet he with he1 | rfl
    · rcases mem_insertSet he1 with he2 | rfl
      · rcases mem_insertSet he2 with he3 | rfl
        · exact hvs _ he3
        · exact cleanStr_reverse hb
      · unfold RNG.choiceS
        exact cleanStr_append hb (getD_all padSuffixes_all _)
    · exact cleanStr_capitalize hb
  · simp only at he
    rcases mem_insertSet he with he1 | rfl
    · exact hvs _ he1
    · unfold RNG.choiceS
      exact cleanStr_append hb (getD_all shortSuffixes_all _)

theorem variantsLoop_clean {n : Nat} {base : Str} (hb : CleanStr base) :
    ∀ (fuel : Nat) (vs : List Str) (r : RNG) (vs1 : List Str) (r1 : RNG),
      (∀ e ∈ vs, CleanStr e) → variantsLoop n base fuel vs r = some (vs1, r1) →
      ∀ e ∈ vs1, CleanStr e := by
  intro fuel
  induction fuel with
  | zero =>
    intro vs r vs1 r1 hvs h
    unfold variantsLoop at h
    split at h
    · exact absurd h (by simp)
    · simp only [Option.some.injEq, Prod.mk.injEq] at h
      obtain ⟨rfl, rfl⟩ := h
      exact hvs
  | succ m ih =>
    intro vs r vs1 r1 hvs h
    unfold variantsLoop at h
    split at h
    · simp only at h
      split at h
      · simp only [Option.some.injEq, Prod.mk.injEq] at h
        obtain ⟨rfl, rfl⟩ := h
        exact variantsStep_clean hb r hvs
      · exact ih _ _ _ _ (variantsStep_clean hb r hvs) h
    · simp only [Option.some.injEq, Prod.mk.injEq] at h
      obtain ⟨rfl, rfl⟩ := h
      exact hvs

theorem pyIndex_lt_length {x : Str} : ∀ {l : List Str}, x ∈ l → pyIndex x l < l.length := by
  intro l
  induction l with
  | nil => intro h; simp at h
  | cons y ys ih =>
    intro h
    unfold pyIndex
    split
    · simp
    · rename_i hne
      rcases List.mem_cons.mp h with rfl | h1
      · exact absurd rfl hne
      · simpa using ih h1

theorem getD_pyIndex {x : Str} : ∀ {l : List Str}, x ∈ l → l.getD (pyIndex x l) [] = x := by
  intro l
  induction l with
  | nil => intro h; simp at h
  | cons y ys ih =>
    intro h
    unfold pyIndex
    split
    · assumption
    · rename_i hne
      rcases List.mem_cons.mp h with rfl | h1
      · exact absurd rfl hne
      · simpa using ih h1

theorem rePadLoop_spec {correct : Str} :
    ∀ (fuel : Nat) (opts : List Str) (r : RNG) (opts1 : List Str) (r1 : RNG),
      rePadLoop correct fuel opts r = some (opts1, r1) →
      (∃ ext, opts1 = opts ++ ext ∧
        ∀ e ∈ ext, ∃ sfx : Str, sfx.all Char.isAlphanum = true ∧ e = correct ++ sfx) ∧
      (opts.length ≤ 4 → opts1.length = 4) ∧ (opts.Nodup → opts1.Nodup) ∧
      4 ≤ opts1.length := by
  intro fuel
  induction fuel with
  | zero =>
    intro opts r opts1 r1 h
    unfold rePadLoop at h
    split at h
    · exact absurd h (by simp)
    · simp only [Option.some.injEq, Prod.mk.injEq] at h
      obtain ⟨rfl, rfl⟩ := h
      exact ⟨⟨[], by simp⟩, fun h4 => by omega, id, by omega⟩
  | succ m ih =>
    intro opts r opts1 r1 h
    unfold rePadLoop at h
    split at h
    · rename_i hlt
      simp only at h
      have hrec := ih _ _ _ _ h
      obtain ⟨⟨ext, hext, hshape⟩, hlen, hnd, hge⟩ := hrec
      by_cases hc : (opts.contains (correct ++ (r.choiceS synthSuffixes).1)) = true
      · rw [if_pos hc] at hext hlen hnd
        exact ⟨⟨ext, hext, hshape⟩, hlen, hnd, hge⟩
      · rw [if_neg hc] at hext hlen hnd
        refine ⟨⟨(correct ++ (r.choiceS synthSuffixes).1) :: ext, by simpa using hext, ?_⟩,
          fun _ => hlen (by simp; omega), ?_, hge⟩
        · intro e he
          rcases List.mem_cons.mp he with rfl | h1
          · exact ⟨(r.choiceS synthSuffixes).1, by
              unfold RNG.choiceS
              exact getD_all synthSuffixes_all _, rfl⟩
          · exact hshape e h1
        · intro hnd0
          apply hnd
          have hnotmem : (correct ++ (r.choiceS synthSuffixes).1) ∉ opts := by
            intro hmem
            exact hc (List.elem_iff.mpr hmem)
          simp [List.nodup_append, hnd0, hnotmem]
    · simp only [Option.some.injEq, Prod.mk.injEq] at h
      obtain ⟨rfl, rfl⟩ := h
      rename_i hge
      simp only [Nat.not_lt] at hge
      exact ⟨⟨[], by simp⟩, fun h4 => by omega, id, hge⟩

theorem padLoop1_spec (correct : Str) :
    ∀ (g : Nat) (opts : List Str) (r : RNG),
      (∃ ext, (padLoop1 correct g opts r).1 = opts ++ ext ∧
        ∀ e ∈ ext, ∃ sfx : Str, sfx.all Char.isAlphanum = true ∧
          e = sanitizeOption (correct ++ sfx)) ∧
      min 4 (opts.length + g) ≤ (padLoop1 correct g opts r).1.length := by
  intro g
  induction g with
  | zero =>
    intro opts r
    refine ⟨⟨[], by simp [padLoop1]⟩, ?_⟩
    have he : (padLoop1 correct 0 opts r).1 = opts := rfl
    rw [he]
    omega
  | succ m ih =>
    intro opts r
    simp only [padLoop1]
    split
    · rename_i hlt
      obtain ⟨⟨ext, hext, hshape⟩, hlen⟩ :=
        ih (opts ++ [sanitizeOption (correct ++ (r.choiceS padSuffixes).1)]) (r.choiceS padSuffixes).2
      constructor
      · refine ⟨sanitizeOption (correct ++ (r.choiceS padSuffixes).1) :: ext,
          by simpa using hext, ?_⟩
        intro e he
        rcases List.mem_cons.mp he with rfl | h1
        · exact ⟨(r.choiceS padSuffixes).1, by
            unfold RNG.choiceS
            exact getD_all padSuffixes_all _, rfl⟩
        · exact hshape e h1
      · simp only [List.length_append, List.length_cons, List.length_nil] at hlen
        omega
    · rename_i hge
      simp only [Nat.not_lt] at hge
      refine ⟨⟨[], by simp⟩, ?_⟩
      show min 4 (opts.length + (m + 1)) ≤ opts.length
      omega

theorem pickDistractors_clean {allTerms : List Str} {correct : Str} {r : RNG} {n fuel : Nat}
    {ds : List Str} {r1 : RNG} (hT : ∀ t ∈ allTerms, CleanStr t) (hc : CleanStr correct)
    (h : pickDistractors allTerms correct r n fuel = some (ds, r1)) :
    ∀ d ∈ ds, CleanStr d := by
  have hpool : ∀ t ∈ allTerms.filter (fun t => t ≠ correct), CleanStr t := by
    intro t ht
    exact hT t (List.mem_of_mem_filter ht)
  unfold pickDistractors at h
  simp only at h
  split at h
  · cases hv : variantsLoop n correct fuel (uniq (allTerms.filter (fun t => t ≠ correct))) r with
    | none => rw [hv] at h; exact absurd h (by simp)
    | some pr =>
      rw [hv] at h
      obtain ⟨vs, rv⟩ := pr
      simp only [Option.some.injEq, Prod.mk.injEq] at h
      obtain ⟨rfl, rfl⟩ := h
      intro d hd
      have hd1 : d ∈ (rv.shuffle vs).1 := List.mem_of_mem_take hd
      have hd2 : d ∈ vs := (shuffle_perm rv vs).mem_iff.mp hd1
      refine variantsLoop_clean hc fuel _ r vs rv ?_ hv d hd2
      intro e he
      exact hpool e ((mem_uniq e _).mp he)
  · simp only [Option.some.injEq, Prod.mk.injEq] at h
    obtain ⟨rfl, rfl⟩ := h
    intro d hd
    have hd1 : d ∈ (r.shuffle (allTerms.filter (fun t => t ≠ correct))).1 :=
      List.mem_of_mem_take hd
    exact hpool d ((shuffle_perm r _).mem_iff.mp hd1)

/-- Structural properties of the option-assembly block (lines 239-260):
whenever it completes, it yields exactly 4 distinct clean options containing
the correct term, whose recorded index is the index of the correct term;
in particular the membership test of line 260 succeeds and the defensive
`else 0` branch is not used. -/
theorem assembleOptions_spec {allTerms : List Str} {correct : Str} {r : RNG} {fuel : Nat}
    {shuffled : List Str} {ci : Nat} {r1 : RNG}
    (hT : ∀ t ∈ allTerms, CleanStr t) (hc : CleanStr correct)
    (h : assembleOptions allTerms correct r fuel = some (shuffled, ci, r1)) :
    shuffled.length = 4 ∧ shuffled.Nodup ∧ (∀ o ∈ shuffled, CleanStr o) ∧
      correct ∈ shuffled ∧ ci = pyIndex correct shuffled ∧ ci ≤ 3 := by
  unfold assembleOptions at h
  cases hpd : pickDistractors allTerms correct r 3 fuel with
  | none => rw [hpd] at h; exact absurd h (by simp)
  | some pr =>
    obtain ⟨ds, r2⟩ := pr
    rw [hpd] at h
    simp only at h
    have hdsC : ∀ d ∈ ds, CleanStr d := pickDistractors_clean hT hc hpd
    have hcorrP : (!(correct : Str).isEmpty && !(pyStrip correct).isEmpty) = true := by
      have h1 : (correct : Str).isEmpty = false := by
        cases hcc : correct with
        | nil => exact absurd hcc hc.1
        | cons a as => rfl
      have h2 : (pyStrip correct).isEmpty = false := by
        rw [pyStrip_clean hc.2, h1]
      rw [h1, h2]; rfl
    have hO0 : ((correct :: ds).filter (fun o => !o.isEmpty && !(pyStrip o).isEmpty)).map
        sanitizeOption =
        correct :: ((ds.filter (fun o => !o.isEmpty && !(pyStrip o).isEmpty)).map
          sanitizeOption) := by
      rw [List.filter_cons, if_pos hcorrP, List.map_cons, sanitize_clean_id hc]
    set O0 := ((correct :: ds).filter (fun o => !o.isEmpty && !(pyStrip o).isEmpty)).map
      sanitizeOption with hO0def
    have hO0clean : ∀ e ∈ O0, CleanStr e := by
      intro e he
      rw [hO0def] at he
      rcases List.mem_map.mp he with ⟨o, ho1, rfl⟩
      have ho2 : o ∈ correct :: ds := List.mem_of_mem_filter ho1
      have hoC : CleanStr o := by
        rcases List.mem_cons.mp ho2 with rfl | h3
        · exact hc
        · exact hdsC o h3
      rw [sanitize_clean_id hoC]
      exact hoC
    obtain ⟨⟨ext1, hext1, hshape1⟩, hlen1⟩ := padLoop1_spec correct 4 O0 r2
    have hP1clean : ∀ e ∈ (padLoop1 correct 4 O0 r2).1, CleanStr e := by
      intro e he
      rw [hext1] at he
      rcases List.mem_append.mp he with h3 | h3
      · exact hO0clean e h3
      · obtain ⟨sfx, hsfx, rfl⟩ := hshape1 e h3
        have : CleanStr (correct ++ sfx) := cleanStr_append hc hsfx
        rw [sanitize_clean_id this]
        exact this
    obtain ⟨tl, htl⟩ : ∃ tl, (padLoop1 correct 4 O0 r2).1 = correct :: tl := by
      refine ⟨(ds.filter (fun o => !o.isEmpty && !(pyStrip o).isEmpty)).map sanitizeOption
        ++ ext1, ?_⟩
      rw [hext1, hO0, List.cons_append]
    have hlen1b : 4 ≤ (padLoop1 correct 4 O0 r2).1.length := by
      have : min 4 (O0.length + 4) = 4 := by omega
      omega
    have hT4 : (padLoop1 correct 4 O0 r2).1.take 4 = correct :: tl.take 3 := by
      rw [htl]; rfl
    have hT4len : ((padLoop1 correct 4 O0 r2).1.take 4).length = 4 := by
      rw [List.length_take]; omega
    set U := uniq ((padLoop1 correct 4 O0 r2).1.take 4) with hUdef
    have hUcons : U = correct :: uniqGo [correct] (tl.take 3) := by
      rw [hUdef, hT4]
      simp [uniq, uniqGo]
    have hUhead : correct ∈ U := by rw [hUcons]; exact List.mem_cons_self _ _
    have hUnodup : U.Nodup := nodup_uniq _
    have hUclean : ∀ e ∈ U, CleanStr e := by
      intro e he
      rw [hUdef] at he
      have h3 : e ∈ (padLoop1 correct 4 O0 r2).1.take 4 := (mem_uniq e _).mp he
      exact hP1clean e (List.mem_of_mem_take h3)
    have hUlen : U.length ≤ 4 := by
      have h3 := length_uniq_le ((padLoop1 correct 4 O0 r2).1.take 4)
      rw [hUdef]; omega
    cases hrp : rePadLoop correct fuel U (padLoop1 correct 4 O0 r2).2 with
    | none => rw [hrp] at h; exact absurd h (by simp)
    | some pr3 =>
      obtain ⟨O3, r4⟩ := pr3
      rw [hrp] at h
      simp only [Option.some.injEq, Prod.mk.injEq] at h
      obtain ⟨⟨ext2, hext2, hshape2⟩, hlen1', hnd', _⟩ :=
        rePadLoop_spec fuel U (padLoop1 correct 4 O0 r2).2 O3 r4 hrp
      have hO3len : O3.length = 4 := hlen1' hUlen
      have hO3nodup : O3.Nodup := hnd' hUnodup
      have hO3clean : ∀ e ∈ O3, CleanStr e := by
        intro e he
        rw [hext2] at he
        rcases List.mem_append.mp he with h3 | h3
        · exact hUclean e h3
        · obtain ⟨sfx, hsfx, rfl⟩ := hshape2 e h3
          exact cleanStr_append hc hsfx
      have hO3mem : correct ∈ O3 := by
        rw [hext2]
        exact List.mem_append.mpr (Or.inl hUhead)
      have hperm := shuffledOptions_perm r4 O3
      obtain ⟨rfl, rfl, rfl⟩ := h
      refine ⟨by rw [hperm.length_eq, hO3len], hperm.nodup_iff.mpr hO3nodup, ?_, ?_, ?_, ?_⟩
      · intro o ho
        exact hO3clean o (hperm.mem_iff.mp ho)
      · exact hperm.mem_iff.mpr hO3mem
      · rw [if_pos (hperm.mem_iff.mpr hO3mem)]
      · rw [if_pos (hperm.mem_iff.mpr hO3mem)]
        have h5 := pyIndex_lt_length (hperm.mem_iff.mpr hO3mem)
        have h6 : ((r4.shuffle (List.range O3.length)).1.map (fun i => O3.getD i [])).length = 4 := by
          rw [hperm.length_eq, hO3len]
        omega

theorem buildOneQuestion_spec {allTerms sentences : List Str} {notes : Str} {fuel idx : Nat}
    {cand : Candidate} {r : RNG} {q : Question} {r1 : RNG}
    (hT : ∀ t ∈ allTerms, CleanStr t) (hc : CleanStr cand.term)
    (h : buildOneQuestion allTerms sentences notes fuel idx cand r = some (q, r1)) :
    q.options.length = 4 ∧ q.options.Nodup ∧ (∀ o ∈ q.options, CleanStr o) ∧
      cand.term ∈ q.options ∧ q.correct_index = pyIndex cand.term q.options ∧
      q.correct_index ≤ 3 := by
  unfold buildOneQuestion at h
  simp only at h
  set sup := (if !cand.sentences.isEmpty then r.choiceS cand.sentences
    else if !sentences.isEmpty then r.choiceS sentences else (notes, r)) with hsup
  set qc := (if idx % 2 = 1 then makeFillIn cand.term sup.1
    else makeDefLike cand.term sup.1) with hqcdef
  have hqc2 : qc.2 = cand.term := by
    rw [hqcdef]; split <;> rfl
  cases ha : assembleOptions allTerms qc.2 sup.2 fuel with
  | none => rw [ha] at h; exact absurd h (by simp)
  | some tri =>
    obtain ⟨sh, ci, r5⟩ := tri
    rw [ha] at h
    simp only [Option.some.injEq, Prod.mk.injEq] at h
    obtain ⟨rfl, rfl⟩ := h
    rw [hqc2] at ha
    obtain ⟨l4, nd, cl, mem, cieq, cile⟩ := assembleOptions_spec hT hc ha
    exact ⟨l4, nd, cl, mem, cieq, cile⟩

theorem buildQuestions_length {allTerms sentences : List Str} {notes : Str} {fuel : Nat} :
    ∀ (cands : List Candidate) (idx : Nat) (r : RNG) (qs : List Question) (r1 : RNG),
      buildQuestions allTerms sentences notes fuel cands idx r = some (qs, r1) →
      qs.length = cands.length := by
  intro cands
  induction cands with
  | nil =>
    intro idx r qs r1 h
    unfold buildQuestions at h
    simp only [Option.some.injEq, Prod.mk.injEq] at h
    obtain ⟨rfl, rfl⟩ := h
    rfl
  | cons c cs ih =>
    intro idx r qs r1 h
    unfold buildQuestions at h
    cases h1 : buildOneQuestion allTerms sentences notes fuel idx c r with
    | none => rw [h1] at h; exact absurd h (by simp)
    | some pr =>
      obtain ⟨q, r2⟩ := pr
      rw [h1] at h
      simp only at h
      cases h2 : buildQuestions allTerms sentences notes fuel cs (idx + 1) r2 with
      | none => rw [h2] at h; exact absurd h (by simp)
      | some pr2 =>
        obtain ⟨qs2, r3⟩ := pr2
        rw [h2] at h
        simp only [Option.some.injEq, Prod.mk.injEq] at h
        obtain ⟨rfl, rfl⟩ := h
        simpa using ih _ _ _ _ h2

theorem buildQuestions_spec {allTerms sentences : List Str} {notes : Str} {fuel : Nat}
    (hT : ∀ t ∈ allTerms, CleanStr t) :
    ∀ (cands : List Candidate) (idx : Nat) (r : RNG) (qs : List Question) (r1 : RNG),
      (∀ c ∈ cands, CleanStr c.term) →
      buildQuestions allTerms sentences notes fuel cands idx r = some (qs, r1) →
      ∀ p ∈ cands.zip qs, p.1.term ∈ p.2.options ∧
        p.2.correct_index = pyIndex p.1.term p.2.options ∧
        p.2.options.length = 4 ∧ p.2.options.Nodup ∧
        (∀ o ∈ p.2.options, CleanStr o) ∧ p.2.correct_index ≤ 3 := by
  intro cands
  induction cands with
  | nil =>
    intro idx r qs r1 _ h p hp
    simp at hp
  | cons c cs ih =>
    intro idx r qs r1 hcl h
    unfold buildQuestions at h
    cases h1 : buildOneQuestion allTerms sentences notes fuel idx c r with
    | none => rw [h1] at h; exact absurd h (by simp)
    | some pr =>
      obtain ⟨q, r2⟩ := pr
      rw [h1] at h
      simp only at h
      cases h2 : buildQuestions allTerms sentences notes fuel cs (idx + 1) r2 with
      | none => rw [h2] at h; exact absurd h (by simp)
      | some pr2 =>
        obtain ⟨qs2, r3⟩ := pr2
        rw [h2] at h
        simp only [Option.some.injEq, Prod.mk.injEq] at h
        obtain ⟨rfl, rfl⟩ := h
        intro p hp
        rcases List.mem_cons.mp (by simpa using hp) with rfl | hp2
        · obtain ⟨l4, nd, cl, mem, cieq, cile⟩ :=
            buildOneQuestion_spec hT (hcl c (by simp)) h1
          exact ⟨mem, cieq, l4, nd, cl, cile⟩
        · exact ih _ _ _ _ (fun d hd => hcl d (by simp [hd])) h2 p hp2

theorem mem_snd_zip {α β : Type _} :
    ∀ {l1 : List α} {l2 : List β}, l1.length = l2.length → ∀ b ∈ l2,
      ∃ a, (a, b) ∈ l1.zip l2 := by
  intro l1
  induction l1 with
  | nil =>
    intro l2 hlen b hb
    cases l2 with
    | nil => simp at hb
    | cons x xs => simp at hlen
  | cons a as ih =>
    intro l2 hlen b hb
    cases l2 with
    | nil => simp at hb
    | cons x xs =>
      rcases List.mem_cons.mp hb with rfl | hb2
      · exact ⟨a, by simp⟩
      · obtain ⟨a2, ha2⟩ := ih (by simpa using hlen) b hb2
        exact ⟨a2, by simp [ha2]⟩

/-! ### All candidate terms are clean (nonempty alphanumeric) -/

theorem foldr_runAlpha_inv (s : Str) :
    (∀ c ∈ (s.foldr (runStep (fun c => !isAsciiAlpha c)) ([], [])).1, isAsciiAlpha c = true) ∧
    (∀ t ∈ (s.foldr (runStep (fun c => !isAsciiAlpha c)) ([], [])).2,
      t ≠ [] ∧ ∀ c ∈ t, isAsciiAlpha c = true) := by
  induction s with
  | nil => exact ⟨by simp, by simp⟩
  | cons c cs ih =>
    rw [List.foldr_cons]
    unfold runStep
    split
    · rename_i hflush
      refine ⟨by simp, ?_⟩
      intro t ht
      simp only at ht
      split at ht
      · exact ih.2 t ht
      · rename_i hne
        rcases List.mem_cons.mp ht with rfl | h2
        · refine ⟨?_, ih.1⟩
          intro habs
          rw [habs] at hne
          exact hne rfl
        · exact ih.2 t h2
    · rename_i halpha
      refine ⟨?_, ih.2⟩
      intro x hx
      rcases List.mem_cons.mp hx with rfl | h2
      · simpa using halpha
      · exact ih.1 x h2

theorem tokenizeAlpha_clean {s : Str} : ∀ t ∈ tokenizeAlpha s, CleanStr t := by
  intro t ht
  unfold tokenizeAlpha at ht
  simp only at ht
  rcases List.mem_map.mp ht with ⟨u, hu, rfl⟩
  have hinv := foldr_runAlpha_inv s
  have hu2 : u ≠ [] ∧ ∀ c ∈ u, isAsciiAlpha c = true := by
    split at hu
    · exact hinv.2 u hu
    · rename_i hne
      rcases List.mem_cons.mp hu with rfl | h2
      · refine ⟨?_, hinv.1⟩
        intro habs
        rw [habs] at hne
        exact hne rfl
      · exact hinv.2 u h2
  constructor
  · simpa using hu2.1
  · rw [List.all_eq_true]
    intro x hx
    rcases List.mem_map.mp hx with ⟨cch, hcch, rfl⟩
    exact asciiAlpha_toLower_alnum (hu2.2 cch hcch)

theorem bumpFreq_keys {P : Str → Prop} {d : List (Str × Nat)} {t : Str}
    (hd : ∀ p ∈ d, P p.1) (ht : P t) : ∀ p ∈ bumpFreq d t, P p.1 := by
  intro p hp
  unfold bumpFreq at hp
  split at hp
  · rcases List.mem_map.mp hp with ⟨q, hq, rfl⟩
    split
    · exact hd q hq
    · exact hd q hq
  · rcases List.mem_append.mp hp with h1 | h1
    · exact hd p h1
    · simp only [List.mem_singleton] at h1
      subst h1
      exact ht

theorem foldl_tokStep_keys {sent : Str} :
    ∀ (toks : List Str) (st : List (Str × Nat) × List (Str × List Str)),
      (∀ t ∈ toks, CleanStr t) → (∀ p ∈ st.1, CleanStr p.1) →
      ∀ p ∈ (toks.foldl (tokStep sent) st).1, CleanStr p.1 := by
  intro toks
  induction toks with
  | nil => intro st _ hst; exact hst
  | cons t ts ih =>
    intro st htoks hst
    rw [List.foldl_cons]
    refine ih _ (fun x hx => htoks x (by simp [hx])) ?_
    unfold tokStep
    split
    · exact bumpFreq_keys hst (htoks t (by simp))
    · exact hst

theorem foldl_candStep_keys :
    ∀ (sents : List Str) (st : List (Str × Nat) × List (Str × List Str)),
      (∀ p ∈ st.1, CleanStr p.1) →
      ∀ p ∈ (sents.foldl candStep st).1, CleanStr p.1 := by
  intro sents
  induction sents with
  | nil => intro st hst; exact hst
  | cons s ss ih =>
    intro st hst
    rw [List.foldl_cons]
    refine ih _ ?_
    unfold candStep
    exact foldl_tokStep_keys _ st tokenizeAlpha_clean hst

theorem collectCandidates_clean {sents : List Str} :
    ∀ c ∈ collectCandidates sents, CleanStr c.term := by
  intro c hc
  unfold collectCandidates at hc
  simp only at hc
  rw [List.mem_insertionSort] at hc
  rcases List.mem_map.mp hc with ⟨p, hp, rfl⟩
  exact foldl_candStep_keys sents ([], []) (by simp) p hp

theorem foldl_bump_keys :
    ∀ (toks : List Str) (d : List (Str × Nat)), (∀ t ∈ toks, CleanStr t) →
      (∀ p ∈ d, CleanStr p.1) →
      ∀ p ∈ toks.foldl (fun d t => bumpFreq d t) d, CleanStr p.1 := by
  intro toks
  induction toks with
  | nil => intro d _ hd; exact hd
  | cons t ts ih =>
    intro d htoks hd
    rw [List.foldl_cons]
    exact ih _ (fun x hx => htoks x (by simp [hx]))
      (bumpFreq_keys hd (htoks t (by simp)))

theorem placeholders_clean :
    ∀ t ∈ (["Concept1", "Concept2", "Concept3", "Concept4", "Concept5", "Concept6",
        "Concept7", "Concept8", "Concept9", "Concept10", "Concept11"]
        : List String).map String.toList, CleanStr t := by decide

theorem fallbackCandidates_clean {notes : Str} :
    ∀ c ∈ fallbackCandidates notes, CleanStr c.term := by
  intro c hc
  unfold fallbackCandidates at hc
  simp only at hc
  rcases List.mem_map.mp hc with ⟨p, hp, rfl⟩
  have hp2 := List.mem_of_mem_take hp
  rw [List.mem_insertionSort] at hp2
  refine foldl_bump_keys _ [] ?_ (by simp) p hp2
  split
  · exact placeholders_clean
  · intro t ht
    exact tokenizeAlpha_clean t (List.mem_of_mem_filter ht)

theorem candidatesOf_clean {s : Str} : ∀ c ∈ candidatesOf s, CleanStr c.term := by
  intro c hc
  unfold candidatesOf at hc
  split at hc
  · exact fallbackCandidates_clean c hc
  · exact collectCandidates_clean c hc

theorem pickedOf_clean {sha : Str → Str} {mt : Nat → Nat → Nat → Nat} {s : Str} :
    ∀ c ∈ pickedOf sha mt s, CleanStr c.term := by
  intro c hc
  unfold pickedOf at hc
  have h1 : c ∈ (pickPair sha mt s).1 := List.mem_of_mem_take hc
  unfold pickPair at h1
  have h2 : c ∈ candidatesOf s := (shuffle_perm _ _).mem_iff.mp h1
  exact candidatesOf_clean c h2

theorem allTermsOf_clean {s : Str} : ∀ t ∈ allTermsOf s, CleanStr t := by
  intro t ht
  unfold allTermsOf at ht
  rw [mem_uniq] at ht
  rcases List.mem_map.mp ht with ⟨c, hc, rfl⟩
  exact candidatesOf_clean c hc

/-! ### Field extraction for the assembled quiz -/

theorem generate_fields {sha : Str → Str} {mt : Nat → Nat → Nat → Nat} {fuel : Nat}
    {notes0 : Str} {title : Option Str} {q : Quiz}
    (h : generateQuizFromNotes sha mt fuel notes0 title = some q) :
    q.id = quizIdOf sha notes0 ∧ q.title = titleOf title (candidatesOf notes0) ∧
    q.created_at = createdAtOf (srcHashOf sha notes0) ∧
    q.source_notes_hash = srcHashOf sha notes0 ∧
    ∃ r1, buildQuestions (allTermsOf notes0) (sentencesOf notes0) (pyStrip notes0) fuel
      (pickedOf sha mt notes0) 1 (pickPair sha mt notes0).2 = some (q.questions, r1) := by
  unfold generateQuizFromNotes at h
  cases hb : buildQuestions (allTermsOf notes0) (sentencesOf notes0) (pyStrip notes0) fuel
      (pickedOf sha mt notes0) 1 (pickPair sha mt notes0).2 with
  | none => rw [hb] at h; exact absurd h (by simp)
  | some pr =>
    obtain ⟨qs, r1⟩ := pr
    rw [hb] at h
    simp only [Option.some.injEq] at h
    subst h
    exact ⟨rfl, rfl, rfl, rfl, r1, by simpa using hb⟩

/-! ### Concrete instances used by witnesses and counterexamples -/

/-- A concrete draw stream: the k-th draw is `k` (reduced modulo the bound by
`randbelow`). -/
def mtW : Nat → Nat → Nat → Nat := fun _ k _ => k

/-- A concrete draw stream that always draws 0. -/
def mtZ : Nat → Nat → Nat → Nat := fun _ _ _ => 0

/-- A concrete stand-in digest function for witness evaluations (the claims
proved against it hold for every digest function). -/
def shaW : Str → Str :=
  fun _ => "e3b0c44298fc1c149afbf4c8996fb92427ae41e4649b934ca495991b7852b855".toList

def abcNotes : Str := "abc".toList

def qW : Quiz := (generateQuizFromNotes shaW mtW 50 abcNotes none).getD default

theorem genW_eq : generateQuizFromNotes shaW mtW 50 abcNotes none = some qW := by decide

/-! ### The claims -/

/-- Claim C1: for every notes string `s` and optional title `t`, two calls of the
generator with identical `(s, t)` (same digest function, same seeded draw
stream, same fuel) return identical quizzes: same id, title, created_at,
source_notes_hash and, question by question, the same question list. -/
theorem C1_generator_deterministic (sha : Str → Str) (mt : Nat → Nat → Nat → Nat)
    (fuel : Nat) (s : Str) (t : Option Str) (q1 q2 : Quiz)
    (h1 : generateQuizFromNotes sha mt fuel s t = some q1)
    (h2 : generateQuizFromNotes sha mt fuel s t = some q2) :
    q1.id = q2.id ∧ q1.title = q2.title ∧ q1.created_at = q2.created_at ∧
      q1.source_notes_hash = q2.source_notes_hash ∧ q1.questions = q2.questions := by
  rw [h1] at h2
  injection h2 with h3
  subst h3
  exact ⟨rfl, rfl, rfl, rfl, rfl⟩

theorem C1_witness :
    qW.id = qW.id ∧ qW.title = qW.title ∧ qW.created_at = qW.created_at ∧
      qW.source_notes_hash = qW.source_notes_hash ∧ qW.questions = qW.questions :=
  C1_generator_deterministic shaW mtW 50 abcNotes none qW qW genW_eq genW_eq

/-- Claim C5: the quiz id is `"quiz-"` followed by the first 12 characters of the
digest of the trimmed notes, and `source_notes_hash` is the full digest of
the trimmed notes (the digest function itself, `hashlib.sha256(...)
.hexdigest()`, is modelled abstractly as `sha`). -/
theorem C5_id_and_hash (sha : Str → Str) (mt : Nat → Nat → Nat → Nat) (fuel : Nat)
    (s : Str) (t : Option Str) (q : Quiz)
    (h : generateQuizFromNotes sha mt fuel s t = some q) :
    q.id = "quiz-".toList ++ (sha (pyStrip s)).take 12 ∧
      q.source_notes_hash = sha (pyStrip s) := by
  obtain ⟨hid, _, _, hsrc, _⟩ := generate_fields h
  exact ⟨by rw [hid]; rfl, by rw [hsrc]; rfl⟩

theorem C5_witness :
    qW.id = "quiz-".toList ++ (shaW (pyStrip abcNotes)).take 12 ∧
      qW.source_notes_hash = shaW (pyStrip abcNotes) :=
  C5_id_and_hash shaW mtW 50 abcNotes none qW genW_eq

def wsNotes : Str := "   ".toList

/-- Claim C6: notes that are empty after trimming are rejected by the `/notes`
boundary handler (`submit_notes`, `main.py` lines 91-93) with the
`InvalidInput` (HTTP 400) error; no quiz is returned. -/
theorem C6_empty_rejected (sha : Str → Str) (mt : Nat → Nat → Nat → Nat) (fuel : Nat)
    (notes : Str) (t : Option Str) (h : pyStrip notes = []) :
    submitNotes sha mt fuel notes t = SubmitResult.invalidInput ∧
      ∀ q : Quiz, submitNotes sha mt fuel notes t ≠ SubmitResult.quiz q := by
  unfold submitNotes
  rw [h]
  simp

theorem C6_witness :
    submitNotes shaW mtW 50 wsNotes none = SubmitResult.invalidInput ∧
      ∀ q : Quiz, submitNotes shaW mtW 50 wsNotes none ≠ SubmitResult.quiz q :=
  C6_empty_rejected shaW mtW 50 wsNotes none (by decide)

/-- Claim C10: for a fixed notes string, the title argument influences only the
title field: the id, created_at, source_notes_hash and the whole question
list agree for any two title arguments (including the case where one run
completes and the other does too, or neither does). -/
theorem C10_title_argument_isolated (sha : Str → Str) (mt : Nat → Nat → Nat → Nat)
    (fuel : Nat) (s : Str) (t1 t2 : Option Str) :
    (generateQuizFromNotes sha mt fuel s t1).map
        (fun q => (q.id, q.created_at, q.source_notes_hash, q.questions)) =
      (generateQuizFromNotes sha mt fuel s t2).map
        (fun q => (q.id, q.created_at, q.source_notes_hash, q.questions)) := by
  unfold generateQuizFromNotes
  cases hb : buildQuestions (allTermsOf s) (sentencesOf s) (pyStrip s) fuel
      (pickedOf sha mt s) 1 (pickPair sha mt s).2 with
  | none => rfl
  | some pr =>
    obtain ⟨qs, r1⟩ := pr
    rfl

/-- Claim C3: every question of a generated quiz has exactly 4 pairwise-distinct
non-empty options, and its correct_index lies between 0 and 3. -/
theorem C3_structural_validity (sha : Str → Str) (mt : Nat → Nat → Nat → Nat)
    (fuel : Nat) (s : Str) (t : Option Str) (q : Quiz)
    (h : generateQuizFromNotes sha mt fuel s t = some q) :
    ∀ qu ∈ q.questions, qu.options.length = 4 ∧ qu.options.Nodup ∧
      (∀ o ∈ qu.options, o ≠ []) ∧ qu.correct_index ≤ 3 := by
  obtain ⟨_, _, _, _, r1, hb⟩ := generate_fields h
  intro qu hqu
  have hlen := buildQuestions_length _ _ _ _ _ hb
  obtain ⟨c, hc⟩ := mem_snd_zip hlen.symm qu hqu
  obtain ⟨_, _, l4, nd, cl, cile⟩ :=
    buildQuestions_spec allTermsOf_clean _ 1 _ _ _ pickedOf_clean hb (c, qu) hc
  exact ⟨l4, nd, fun o ho => (cl o ho).1, cile⟩

def quW : Question := qW.questions.getD 0 default

theorem C3_witness :
    quW ∈ qW.questions ∧ quW.options.length = 4 ∧ quW.options.Nodup ∧
      (∀ o ∈ quW.options, o ≠ []) ∧ quW.correct_index ≤ 3 :=
  ⟨by decide, C3_structural_validity shaW mtW 50 abcNotes none qW genW_eq quW (by decide)⟩

/-- Claim C4: pairing the picked candidates with the produced questions, each
question's options contain that candidate's term (the correct answer), and
`correct_index` is exactly the index of that term in the shuffled options —
so the membership test of line 260 succeeds and the defensive
`correct_index = 0` branch is never taken. -/
theorem C4_correct_index_sound (sha : Str → Str) (mt : Nat → Nat → Nat → Nat)
    (fuel : Nat) (s : Str) (t : Option Str) (q : Quiz)
    (h : generateQuizFromNotes sha mt fuel s t = some q) :
    q.questions.length = (pickedOf sha mt s).length ∧
    ∀ p ∈ (pickedOf sha mt s).zip q.questions,
      p.1.term ∈ p.2.options ∧ p.2.correct_index = pyIndex p.1.term p.2.options := by
  obtain ⟨_, _, _, _, r1, hb⟩ := generate_fields h
  refine ⟨buildQuestions_length _ _ _ _ _ hb, ?_⟩
  intro p hp
  obtain ⟨mem, cieq, _, _, _, _⟩ :=
    buildQuestions_spec allTermsOf_clean _ 1 _ _ _ pickedOf_clean hb p hp
  exact ⟨mem, cieq⟩

def pairW : Candidate × Question := ((pickedOf shaW mtW abcNotes).zip qW.questions).getD 0 default

theorem C4_witness :
    pairW ∈ (pickedOf shaW mtW abcNotes).zip qW.questions ∧
      pairW.1.term ∈ pairW.2.options ∧
      pairW.2.correct_index = pyIndex pairW.1.term pairW.2.options :=
  ⟨by decide,
    (C4_correct_index_sound shaW mtW 50 abcNotes none qW genW_eq).2 pairW (by decide)⟩

theorem generate_questions_length {sha : Str → Str} {mt : Nat → Nat → Nat → Nat}
    {fuel : Nat} {s : Str} {t : Option Str} {q : Quiz}
    (h : generateQuizFromNotes sha mt fuel s t = some q) :
    q.questions.length = min (numQuestionsOf s) (candidatesOf s).length := by
  obtain ⟨_, _, _, _, r1, hb⟩ := generate_fields h
  rw [buildQuestions_length _ _ _ _ _ hb]
  unfold pickedOf
  rw [List.length_take]
  unfold pickPair
  rw [shuffle_length]

theorem numQuestionsOf_le_8 (s : Str) : numQuestionsOf s ≤ 8 := by
  unfold numQuestionsOf
  simp only
  split <;> omega

/-- Claim C2 counterexample: the notes string "abc" has exactly one candidate term,
and the generated quiz contains exactly one question, not at least 5.
(The question count is independent of the digest function and the draw
stream, as the amended theorem shows.) -/
theorem C2_counterexample :
    (generateQuizFromNotes shaW mtW 50 abcNotes none).map (fun q => q.questions.length) =
      some 1 ∧ ¬ 5 ≤ 1 := by
  exact ⟨by decide, by decide⟩

/-- Claim C2 amended: the question count equals
`min num_questions (len candidates-after-fallback)`.  It is always at most
8, and it is at least 5 exactly when enough candidates exist; when the
pre-fallback candidate count is positive but below 5, the quiz has that
many questions (possibly as few as 1). -/
theorem C2_amended (sha : Str → Str) (mt : Nat → Nat → Nat → Nat) (fuel : Nat)
    (s : Str) (t : Option Str) (q : Quiz)
    (h : generateQuizFromNotes sha mt fuel s t = some q) :
    q.questions.length = min (numQuestionsOf s) (candidatesOf s).length ∧
    q.questions.length ≤ 8 ∧
    (5 ≤ (candidates0Of s).length →
      q.questions.length = min (candidates0Of s).length 8) ∧
    ((candidates0Of s).length ≠ 0 → (candidates0Of s).length < 5 →
      q.questions.length = (candidates0Of s).length) := by
  have hlen := generate_questions_length h
  have h8 := numQuestionsOf_le_8 s
  refine ⟨hlen, by omega, ?_, ?_⟩
  · intro h5
    have hne : (candidates0Of s).isEmpty = false := by
      cases hc : candidates0Of s with
      | nil => rw [hc] at h5; simp at h5
      | cons a l => rfl
    have hcand : candidatesOf s = candidates0Of s := by
      unfold candidatesOf
      rw [hne]
      simp
    rw [hlen, hcand]
    unfold numQuestionsOf
    simp only
    split
    · omega
    · omega
  · intro hne0 hlt5
    have hne : (candidates0Of s).isEmpty = false := by
      cases hc : candidates0Of s with
      | nil => rw [hc] at hne0; simp at hne0
      | cons a l => rfl
    have hcand : candidatesOf s = candidates0Of s := by
      unfold candidatesOf
      rw [hne]
      simp
    rw [hlen, hcand]
    unfold numQuestionsOf
    simp only
    split
    · omega
    · omega

theorem C2_witness :
    qW.questions.length = min (numQuestionsOf abcNotes) (candidatesOf abcNotes).length ∧
    qW.questions.length ≤ 8 ∧
    (5 ≤ (candidates0Of abcNotes).length →
      qW.questions.length = min (candidates0Of abcNotes).length 8) ∧
    ((candidates0Of abcNotes).length ≠ 0 → (candidates0Of abcNotes).length < 5 →
      qW.questions.length = (candidates0Of abcNotes).length) :=
  C2_amended shaW mtW 50 abcNotes none qW genW_eq

theorem bumpFreq_ne_nil {d : List (Str × Nat)} {t : Str} : bumpFreq d t ≠ [] := by
  unfold bumpFreq
  split
  · rename_i hany
    cases d with
    | nil => simp at hany
    | cons p ps => simp
  · simp

theorem foldl_bump_ne_nil :
    ∀ (toks : List Str) (d : List (Str × Nat)), d ≠ [] →
      toks.foldl (fun d t => bumpFreq d t) d ≠ [] := by
  intro toks
  induction toks with
  | nil => intro d hd; exact hd
  | cons t ts ih =>
    intro d _
    rw [List.foldl_cons]
    exact ih _ bumpFreq_ne_nil

theorem fallbackCandidates_ne_nil {notes : Str} : fallbackCandidates notes ≠ [] := by
  unfold fallbackCandidates
  simp only
  intro habs
  rw [List.map_eq_nil_iff] at habs
  have h1 : ∀ (l : List (Str × Nat)), l ≠ [] → l.take 12 ≠ [] := by
    intro l hl
    cases l with
    | nil => exact absurd rfl hl
    | cons p ps => simp
  refine h1 _ ?_ habs
  intro habs2
  have h2 := congrArg List.length habs2
  rw [List.length_insertionSort] at h2
  simp only [List.length_nil] at h2
  have h3 : ∀ (toks : List Str), toks ≠ [] →
      toks.foldl (fun d t => bumpFreq d t) ([] : List (Str × Nat)) ≠ [] := by
    intro toks htoks
    cases toks with
    | nil => exact absurd rfl htoks
    | cons t ts =>
      rw [List.foldl_cons]
      exact foldl_bump_ne_nil ts _ bumpFreq_ne_nil
  refine h3 _ ?_ (List.length_eq_zero.mp h2)
  split
  · simp
  · rename_i hne
    intro habs3
    rw [habs3] at hne
    exact hne rfl

theorem candidatesOf_ne_nil {s : Str} : candidatesOf s ≠ [] := by
  unfold candidatesOf
  split
  · exact fallbackCandidates_ne_nil
  · rename_i hne
    intro habs
    rw [habs] at hne
    exact hne rfl

theorem autoTitle_of_ne_nil {cands : List Candidate} (h : cands ≠ []) :
    autoTitle cands = "Quiz: ".toList ++
      List.intercalate (" & ".toList) ((cands.take 2).map (fun c => pyCapitalize c.term)) := by
  unfold autoTitle
  simp only
  rw [if_pos]
  cases cands with
  | nil => exact absurd rfl h
  | cons c cs => simp

/-- Claim C7 counterexample: the notes string "abc" has exactly one candidate
(fewer than 2), yet the derived title is "Quiz: Abc", not
"Quiz: Study Notes" — the join over `candidates[:2]` degenerates to the
single capitalized term instead of the documented fallback. -/
theorem C7_counterexample :
    (candidatesOf abcNotes).length = 1 ∧
    (generateQuizFromNotes shaW mtW 50 abcNotes none).map Quiz.title =
      some ("Quiz: Abc".toList) ∧
    ("Quiz: Abc".toList : Str) ≠ "Quiz: Study Notes".toList := by
  exact ⟨by decide, by decide, by decide⟩

/-- Claim C7 amended: the title is the caller-supplied title trimmed when that is
nonempty before and after trimming; otherwise it is `"Quiz: "` followed by
the `" & "`-join of the capitalized first `min 2 count` candidate terms.
The `"Study Notes"` fallback would require a completely empty candidate
list, which cannot occur after the fallback of lines 200-213. -/
theorem C7_amended (sha : Str → Str) (mt : Nat → Nat → Nat → Nat) (fuel : Nat)
    (s : Str) (topt : Option Str) (q : Quiz)
    (h : generateQuizFromNotes sha mt fuel s topt = some q) :
    q.title = titleOf topt (candidatesOf s) ∧
    (∀ tt : Str, topt = some tt → tt ≠ [] → pyStrip tt ≠ [] → q.title = pyStrip tt) ∧
    candidatesOf s ≠ [] ∧
    titleOf none (candidatesOf s) = "Quiz: ".toList ++
      List.intercalate (" & ".toList)
        (((candidatesOf s).take 2).map (fun c => pyCapitalize c.term)) := by
  obtain ⟨_, ht, _, _, _⟩ := generate_fields h
  refine ⟨ht, ?_, candidatesOf_ne_nil, ?_⟩
  · intro tt htt h1 h2
    subst htt
    rw [ht]
    unfold titleOf
    simp only
    rw [if_pos]
    simp only [Bool.and_eq_true, Bool.not_eq_true]
    constructor
    · cases hc : tt with
      | nil => exact absurd hc h1
      | cons a l => rfl
    · cases hc : pyStrip tt with
      | nil => exact absurd hc h2
      | cons a l => rfl
  · show autoTitle (candidatesOf s) = _
    exact autoTitle_of_ne_nil candidatesOf_ne_nil

theorem C7_witness :
    qW.title = titleOf none (candidatesOf abcNotes) ∧
    (∀ tt : Str, (none : Option Str) = some tt → tt ≠ [] → pyStrip tt ≠ [] →
      qW.title = pyStrip tt) ∧
    candidatesOf abcNotes ≠ [] ∧
    titleOf none (candidatesOf abcNotes) = "Quiz: ".toList ++
      List.intercalate (" & ".toList)
        (((candidatesOf abcNotes).take 2).map (fun c => pyCapitalize c.term)) :=
  C7_amended shaW mtW 50 abcNotes none qW genW_eq

/-! ### Characterisation of the recorded example sentences (C8) -/

/-- The per-occurrence example-sentence stream of a term: one copy of each
sentence for every kept occurrence of `t` in it, in reading order. -/
def occSents (sents : List Str) (t : Str) : List Str :=
  (sents.map (fun s =>
    (((tokenizeAlpha s).filter keepToken).filter (fun x => x = t)).map (fun _ => s))).flatten

theorem find?_append_none {α : Type _} {p : α → Bool} :
    ∀ {l1 : List α} (l2 : List α), l1.find? p = none → (l1 ++ l2).find? p = l2.find? p := by
  intro l1
  induction l1 with
  | nil => intro l2 _; rfl
  | cons a as ih =>
    intro l2 h
    cases hpa : p a with
    | true => rw [List.find?_cons_of_pos _ hpa] at h; exact absurd h (by simp)
    | false =>
      rw [List.find?_cons_of_neg _ (by simp [hpa])] at h
      rw [List.cons_append, List.find?_cons_of_neg _ (by simp [hpa])]
      exact ih l2 h

theorem find?_append_some {α : Type _} {p : α → Bool} {v : α} :
    ∀ {l1 : List α} (l2 : List α), l1.find? p = some v → (l1 ++ l2).find? p = some v := by
  intro l1
  induction l1 with
  | nil => intro l2 h; simp at h
  | cons a as ih =>
    intro l2 h
    cases hpa : p a with
    | true =>
      rw [List.find?_cons_of_pos _ hpa] at h
      rw [List.cons_append, List.find?_cons_of_pos _ hpa]
      exact h
    | false =>
      rw [List.find?_cons_of_neg _ (by simp [hpa])] at h
      rw [List.cons_append, List.find?_cons_of_neg _ (by simp [hpa])]
      exact ih l2 h

theorem any_false_find?_none {α : Type _} {p : α → Bool} {l : List α}
    (h : l.any p = false) : l.find? p = none := by
  rw [List.find?_eq_none]
  intro x hx hp
  have h2 : ∀ x ∈ l, p x = false := by simpa using h
  rw [h2 x hx] at hp
  simp at hp

theorem lookupEx_cons_pos {q : Str × List Str} {ps : List (Str × List Str)} {t : Str}
    (h : (q.1 == t) = true) : lookupEx (q :: ps) t = q.2 := by
  unfold lookupEx
  simp only [List.find?]
  rw [h]
  rfl

theorem lookupEx_cons_neg {q : Str × List Str} {ps : List (Str × List Str)} {t : Str}
    (h : (q.1 == t) = false) : lookupEx (q :: ps) t = lookupEx ps t := by
  unfold lookupEx
  simp only [List.find?]
  rw [h]

/-- The value update of `addExample` never changes a key. -/
theorem updKey (t sent : Str) (q : Str × List Str) :
    (if (q.1 == t && decide (q.2.length < 3)) = true then (q.1, q.2 ++ [sent]) else q).1 =
      q.1 := by
  split <;> rfl

theorem updEq {t sent : Str} {q : Str × List Str} (h : (q.1 == t) = false) :
    (if (q.1 == t && decide (q.2.length < 3)) = true then (q.1, q.2 ++ [sent]) else q) =
      q := by
  rw [if_neg]
  rw [h]
  simp

/-- Updating a key different from `u` does not change the lookup at `u`. -/
theorem lookupEx_map_ne {t sent u : Str} (hut : u ≠ t) :
    ∀ (e : List (Str × List Str)),
      lookupEx (e.map (fun q => if (q.1 == t && decide (q.2.length < 3)) = true
        then (q.1, q.2 ++ [sent]) else q)) u = lookupEx e u := by
  intro e
  induction e with
  | nil => rfl
  | cons q ps ih =>
    rw [List.map_cons]
    by_cases hqu : q.1 = u
    · have hqt : (q.1 == t) = false := beq_eq_false_iff_ne.mpr (by rw [hqu]; exact hut)
      rw [updEq hqt]
      have hb : (q.1 == u) = true := by simp [hqu]
      rw [lookupEx_cons_pos hb, lookupEx_cons_pos hb]
    · have h1 : (q.1 == u) = false := beq_eq_false_iff_ne.mpr hqu
      have h2 : ((if (q.1 == t && decide (q.2.length < 3)) = true
          then (q.1, q.2 ++ [sent]) else q).1 == u) = false := by
        rw [updKey]
        exact h1
      rw [lookupEx_cons_neg h2, lookupEx_cons_neg h1]
      exact ih

/-- Lookup after the map-update of `addExample` when the key is present. -/
theorem lookupEx_mapAdd {t sent : Str} :
    ∀ (e : List (Str × List Str)), e.any (fun q => q.1 == t) = true →
      lookupEx (e.map (fun q => if (q.1 == t && decide (q.2.length < 3)) = true
        then (q.1, q.2 ++ [sent]) else q)) t =
        (if (lookupEx e t).length < 3 then lookupEx e t ++ [sent] else lookupEx e t) := by
  intro e
  induction e with
  | nil => intro h; simp at h
  | cons q ps ih =>
    intro hany
    rw [List.map_cons]
    by_cases hqt : q.1 = t
    · have hbt : (q.1 == t) = true := by simp [hqt]
      rw [lookupEx_cons_pos hbt]
      rcases Nat.lt_or_ge q.2.length 3 with hl | hl
      · have hhead : (if (q.1 == t && decide (q.2.length < 3)) = true
            then (q.1, q.2 ++ [sent]) else q) = (q.1, q.2 ++ [sent]) := by
          rw [if_pos]
          simp [hbt, hl]
        have hbt2 : (((q.1, q.2 ++ [sent]) : Str × List Str).1 == t) = true := hbt
        rw [hhead, lookupEx_cons_pos hbt2, if_pos hl]
      · have hhead : (if (q.1 == t && decide (q.2.length < 3)) = true
            then (q.1, q.2 ++ [sent]) else q) = q := by
          rw [if_neg]
          simp only [hbt, Bool.true_and, decide_eq_true_eq]
          omega
        rw [hhead, lookupEx_cons_pos hbt, if_neg (by omega)]
    · have hbt : (q.1 == t) = false := beq_eq_false_iff_ne.mpr hqt
      have hany2 : ps.any (fun q => q.1 == t) = true := by
        simp only [List.any_cons, hbt, Bool.false_or] at hany
        exact hany
      rw [updEq hbt]
      rw [lookupEx_cons_neg hbt, lookupEx_cons_neg hbt]
      exact ih hany2

theorem lookupEx_addExample (e : List (Str × List Str)) (t sent u : Str) :
    lookupEx (addExample e t sent) u =
      if u = t then
        (if (lookupEx e t).length < 3 then lookupEx e t ++ [sent] else lookupEx e t)
      else lookupEx e u := by
  unfold addExample
  split
  · rename_i hany
    by_cases hut : u = t
    · subst hut
      rw [if_pos rfl]
      exact lookupEx_mapAdd e hany
    · rw [if_neg hut]
      exact lookupEx_map_ne hut e
  · rename_i hany
    have hnone : e.find? (fun q => q.1 == t) = none :=
      any_false_find?_none (Bool.eq_false_iff.mpr hany)
    by_cases hut : u = t
    · subst hut
      have h0 : lookupEx e u = [] := by
        unfold lookupEx
        rw [hnone]
        rfl
      rw [if_pos rfl, h0]
      have hr : (if ([] : List Str).length < 3 then ([] : List Str) ++ [sent] else []) =
          [sent] := by simp
      rw [hr]
      unfold lookupEx
      rw [find?_append_none _ hnone]
      simp only [List.find?]
      rw [(by simp : (((u, [sent]) : Str × List Str).1 == u) = true)]
      rfl
    · rw [if_neg hut]
      unfold lookupEx
      cases hf : e.find? (fun q => q.1 == u) with
      | none =>
        rw [find?_append_none _ hf]
        have hone : List.find? (fun q => q.1 == u) [((t, [sent]) : Str × List Str)] =
            none := by
          rw [List.find?_eq_none]
          intro x hx habs
          simp only [List.mem_singleton] at hx
          subst hx
          have habs2 : t = u := by simpa using habs
          exact hut habs2.symm
        rw [hone]
      | some v =>
        rw [find?_append_some _ hf]

/-- One kept occurrence of `u` appends one copy of the sentence, capped at
the first 3 recorded: the invariant over the inner token fold. -/
theorem tok_fold_ex (sent : Str) :
    ∀ (toks : List Str) (st : List (Str × Nat) × List (Str × List Str)) (g : Str → List Str),
      (∀ u, lookupEx st.2 u = (g u).take 3) →
      ∀ u, lookupEx ((toks.foldl (tokStep sent) st).2) u =
        ((g u ++ ((toks.filter keepToken).filter (fun x => x = u)).map
          (fun _ => sent)).take 3) := by
  intro toks
  induction toks with
  | nil =>
    intro st g hg u
    simp [hg u]
  | cons t ts ih =>
    intro st g hg u
    rw [List.foldl_cons]
    by_cases hk : keepToken t = true
    · have hg2 : ∀ u, lookupEx (tokStep sent st t).2 u =
          ((if u = t then g u ++ [sent] else g u).take 3) := by
        intro u
        have hstep : (tokStep sent st t).2 = addExample st.2 t sent := by
          unfold tokStep
          rw [if_pos hk]
        rw [hstep, lookupEx_addExample]
        by_cases hut : u = t
        · rw [if_pos hut, if_pos hut]
          subst hut
          rw [hg u]
          rcases Nat.lt_or_ge (g u).length 3 with hl | hl
          · have e1 : (g u).take 3 = g u := List.take_of_length_le (by omega)
            rw [e1, if_pos (by omega)]
            exact (List.take_of_length_le (by simp; omega)).symm
          · have e1 : ((g u).take 3).length = 3 := by
              rw [List.length_take]
              omega
            rw [if_neg (by omega)]
            exact (List.take_append_of_le_length (by omega)).symm
        · rw [if_neg hut, if_neg hut]
          exact hg u
      have hres := ih (tokStep sent st t) (fun u => if u = t then g u ++ [sent] else g u)
        hg2 u
      rw [hres, List.filter_cons, if_pos hk, List.filter_cons]
      by_cases hut : u = t
      · subst hut
        rw [if_pos rfl, if_pos (by simp)]
        simp [List.append_assoc]
      · have htu : t ≠ u := fun habs => hut habs.symm
        rw [if_neg hut, if_neg (by simpa using htu)]
    · have hstep : tokStep sent st t = st := by
        unfold tokStep
        rw [if_neg hk]
      rw [hstep]
      rw [List.filter_cons, if_neg (by simpa using hk)]
      exact ih st g hg u

/-- The outer fold over sentences accumulates the per-occurrence stream. -/
theorem sents_fold_ex :
    ∀ (sents : List Str) (st : List (Str × Nat) × List (Str × List Str)) (g : Str → List Str),
      (∀ u, lookupEx st.2 u = (g u).take 3) →
      ∀ u, lookupEx ((sents.foldl candStep st).2) u = ((g u ++ occSents sents u).take 3) := by
  intro sents
  induction sents with
  | nil =>
    intro st g hg u
    simp only [List.foldl_nil, occSents, List.map_nil, List.flatten_nil, List.append_nil]
    exact hg u
  | cons s ss ih =>
    intro st g hg u
    rw [List.foldl_cons]
    have h1 : ∀ u, lookupEx ((candStep st s).2) u =
        ((g u ++ (((tokenizeAlpha s).filter keepToken).filter (fun x => x = u)).map
          (fun _ => s)).take 3) := by
      intro u
      unfold candStep
      exact tok_fold_ex s (tokenizeAlpha s) st g hg u
    have hres := ih (candStep st s)
      (fun u => g u ++ (((tokenizeAlpha s).filter keepToken).filter (fun x => x = u)).map
        (fun _ => s)) h1 u
    rw [hres]
    unfold occSents
    rw [List.map_cons, List.flatten_cons, List.append_assoc]

/-- Claim C8 counterexample: with the single sentence "dog dog" the term "dog" is
recorded with the same sentence twice (once per occurrence), so a
candidates example-sentence list can repeat a sentence. -/
theorem C8_counterexample :
    (collectCandidates ["dog dog".toList]).map Candidate.sentences =
      [["dog dog".toList, "dog dog".toList]] ∧
    ¬ (∀ c ∈ collectCandidates ["dog dog".toList], c.sentences.Nodup) := by
  exact ⟨by decide, by decide⟩

/-- Claim C8 amended: each candidate records the sentences of the first up to 3
kept occurrences of its term, in reading order, one entry per occurrence —
a sentence appears once for each occurrence of the term in it (so a
sentence can appear more than once); it is not a list of the first 3
distinct sentences. -/
theorem C8_amended (sents : List Str) :
    ∀ c ∈ collectCandidates sents, c.sentences = (occSents sents c.term).take 3 := by
  intro c hc
  unfold collectCandidates at hc
  simp only at hc
  rw [List.mem_insertionSort] at hc
  rcases List.mem_map.mp hc with ⟨p, hp, rfl⟩
  show lookupEx (sents.foldl candStep ([], [])).2 p.1 = _
  rw [sents_fold_ex sents ([], []) (fun _ => []) (fun u => rfl) p.1]
  rw [List.nil_append]

def candW : Candidate := (collectCandidates ["dog cat dog. More dog talk!".toList]).getD 0 default

theorem C8_witness :
    candW ∈ collectCandidates ["dog cat dog. More dog talk!".toList] ∧
      candW.sentences =
        (occSents ["dog cat dog. More dog talk!".toList] candW.term).take 3 :=
  ⟨by decide, C8_amended ["dog cat dog. More dog talk!".toList] candW (by decide)⟩

/-! ### C9: the RNG-dependent loops are not capped -/

theorem variantsLoop_zero_stuck (f : Nat → Nat → Nat) (hf : ∀ k n, f k n = 0) :
    ∀ (F k : Nat), variantsLoop 3 ("abc".toList) F ["abc1".toList] ⟨f, k⟩ = none := by
  intro F
  induction F with
  | zero =>
    intro k
    rw [variantsLoop, if_pos (by decide)]
  | succ m ih =>
    intro k
    rw [variantsLoop, if_pos (by decide)]
    simp only
    have hstep : variantsStep ("abc".toList) ["abc1".toList] ⟨f, k⟩ =
        (["abc1".toList], ⟨f, k + 1⟩) := by
      unfold variantsStep
      rw [if_neg (by decide)]
      simp only [RNG.choiceS, RNG.randbelow]
      rw [hf k]
      simp [insertSet, shortSuffixes]
    rw [hstep, if_neg (by simp)]
    exact ih (k + 1)

theorem variantsLoop_zero_nil (f : Nat → Nat → Nat) (hf : ∀ k n, f k n = 0) :
    ∀ (F k : Nat), variantsLoop 3 ("abc".toList) F [] ⟨f, k⟩ = none := by
  intro F k
  cases F with
  | zero =>
    rw [variantsLoop, if_pos (by decide)]
  | succ m =>
    rw [variantsLoop, if_pos (by decide)]
    simp only
    have hstep : variantsStep ("abc".toList) [] ⟨f, k⟩ =
        (["abc1".toList], ⟨f, k + 1⟩) := by
      unfold variantsStep
      rw [if_neg (by decide)]
      simp only [RNG.choiceS, RNG.randbelow]
      rw [hf k]
      simp [insertSet, shortSuffixes]
    rw [hstep, if_neg (by simp)]
    exact variantsLoop_zero_stuck f hf m (k + 1)

theorem pickDistractors_zero (f : Nat → Nat → Nat) (hf : ∀ k n, f k n = 0)
    (F k : Nat) :
    pickDistractors [("abc".toList : Str)] ("abc".toList) ⟨f, k⟩ 3 F = none := by
  unfold pickDistractors
  simp only
  rw [(by decide : List.filter (fun t => decide (t ≠ "abc".toList))
    [("abc".toList : Str)] = [])]
  rw [if_pos (by decide)]
  simp only [uniq, uniqGo]
  rw [variantsLoop_zero_nil f hf F k]

theorem buildOne_zero_none (f : Nat → Nat → Nat) (hf : ∀ k n, f k n = 0)
    (F k : Nat) :
    buildOneQuestion [("abc".toList : Str)] [("abc".toList : Str)] ("abc".toList) F 1
      ⟨"abc".toList, 1, ["abc".toList]⟩ ⟨f, k⟩ = none := by
  unfold buildOneQuestion
  simp only
  rw [if_pos (by decide)]
  have hsup : RNG.choiceS ⟨f, k⟩ [("abc".toList : Str)] = ("abc".toList, ⟨f, k + 1⟩) := by
    unfold RNG.choiceS RNG.randbelow
    simp [Nat.mod_one]
  rw [hsup, if_pos (by decide)]
  have hqc : (makeFillIn ("abc".toList) ("abc".toList)).2 = "abc".toList := rfl
  rw [hqc]
  unfold assembleOptions
  rw [pickDistractors_zero f hf F (k + 1)]

theorem buildQuestions_zero_none (f : Nat → Nat → Nat) (hf : ∀ k n, f k n = 0)
    (F k : Nat) :
    buildQuestions [("abc".toList : Str)] [("abc".toList : Str)] ("abc".toList) F
      [⟨"abc".toList, 1, ["abc".toList]⟩] 1 ⟨f, k⟩ = none := by
  unfold buildQuestions
  rw [buildOne_zero_none f hf F k]

/-- Claim C9 counterexample: for the notes "abc" and the draw stream that always
draws 0, the variant-synthesis loop of `_pick_distractors` never reaches
either its `len >= n` exit or its `10 * n` break (the set stays stuck at
one element), so no amount of fuel makes the generator return: the loop is
not capped and the generator is not total for every draw sequence. -/
theorem C9_counterexample :
    ¬ ∃ (fuel : Nat) (q : Quiz),
        generateQuizFromNotes shaW mtZ fuel abcNotes none = some q := by
  rintro ⟨F, q, h⟩
  unfold generateQuizFromNotes at h
  have hb : buildQuestions (allTermsOf abcNotes) (sentencesOf abcNotes) (pyStrip abcNotes)
      F (pickedOf shaW mtZ abcNotes) 1 (pickPair shaW mtZ abcNotes).2 = none :=
    buildQuestions_zero_none (mtZ (seedFromHash (srcHashOf shaW abcNotes)))
      (fun _ _ => rfl) F 0
  rw [hb] at h
  exact absurd h (by simp)

/-! ### C9 amended: fuel monotonicity -/

theorem variantsLoop_mono {n : Nat} {base : Str} :
    ∀ (F1 : Nat) (F2 : Nat), F1 ≤ F2 → ∀ (vs : List Str) (r : RNG) (out : List Str × RNG),
      variantsLoop n base F1 vs r = some out → variantsLoop n base F2 vs r = some out := by
  intro F1
  induction F1 with
  | zero =>
    intro F2 _ vs r out h
    rw [variantsLoop] at h
    split at h
    · exact absurd h (by simp)
    · rename_i hge
      cases F2 with
      | zero => rw [variantsLoop, if_neg hge]; exact h
      | succ m2 => rw [variantsLoop, if_neg hge]; exact h
  | succ m ih =>
    intro F2 hle vs r out h
    cases F2 with
    | zero => omega
    | succ m2 =>
      rw [variantsLoop] at h
      rw [variantsLoop]
      split at h
      · rename_i hlt
        rw [if_pos hlt]
        simp only at h ⊢
        split at h
        · rename_i hbreak
          rw [if_pos hbreak]
          exact h
        · rename_i hbreak
          rw [if_neg hbreak]
          exact ih m2 (by omega) _ _ _ h
      · rename_i hge
        rw [if_neg hge]
        exact h

theorem rePadLoop_mono {correct : Str} :
    ∀ (F1 : Nat) (F2 : Nat), F1 ≤ F2 → ∀ (opts : List Str) (r : RNG) (out : List Str × RNG),
      rePadLoop correct F1 opts r = some out → rePadLoop correct F2 opts r = some out := by
  intro F1
  induction F1 with
  | zero =>
    intro F2 _ opts r out h
    rw [rePadLoop] at h
    split at h
    · exact absurd h (by simp)
    · rename_i hge
      cases F2 with
      | zero => rw [rePadLoop, if_neg hge]; exact h
      | succ m2 => rw [rePadLoop, if_neg hge]; exact h
  | succ m ih =>
    intro F2 hle opts r out h
    cases F2 with
    | zero => omega
    | succ m2 =>
      rw [rePadLoop] at h
      rw [rePadLoop]
      split at h
      · rename_i hlt
        rw [if_pos hlt]
        simp only at h ⊢
        exact ih m2 (by omega) _ _ _ h
      · rename_i hge
        rw [if_neg hge]
        exact h

theorem pickDistractors_mono {allTerms : List Str} {correct : Str} {r : RNG} {n : Nat}
    {out : List Str × RNG} {F1 F2 : Nat} (hle : F1 ≤ F2)
    (h : pickDistractors allTerms correct r n F1 = some out) :
    pickDistractors allTerms correct r n F2 = some out := by
  unfold pickDistractors at h ⊢
  simp only at h ⊢
  split at h
  · rename_i hlt
    rw [if_pos hlt]
    cases hv : variantsLoop n correct F1
        (uniq (allTerms.filter (fun t => t ≠ correct))) r with
    | none => rw [hv] at h; exact absurd h (by simp)
    | some pr =>
      rw [hv] at h
      rw [variantsLoop_mono F1 F2 hle _ _ _ hv]
      exact h
  · rename_i hge
    rw [if_neg hge]
    exact h

theorem assembleOptions_mono {allTerms : List Str} {correct : Str} {r : RNG}
    {out : List Str × Nat × RNG} {F1 F2 : Nat} (hle : F1 ≤ F2)
    (h : assembleOptions allTerms correct r F1 = some out) :
    assembleOptions allTerms correct r F2 = some out := by
  unfold assembleOptions at h ⊢
  cases hp : pickDistractors allTerms correct r 3 F1 with
  | none => rw [hp] at h; exact absurd h (by simp)
  | some pr =>
    obtain ⟨ds, r2⟩ := pr
    rw [hp] at h
    rw [pickDistractors_mono hle hp]
    simp only at h ⊢
    cases hrp : rePadLoop correct F1
        (uniq ((padLoop1 correct 4 ((List.filter (fun o => !o.isEmpty &&
          !(pyStrip o).isEmpty) (correct :: ds)).map sanitizeOption) r2).1.take 4))
        (padLoop1 correct 4 ((List.filter (fun o => !o.isEmpty &&
          !(pyStrip o).isEmpty) (correct :: ds)).map sanitizeOption) r2).2 with
    | none => rw [hrp] at h; exact absurd h (by simp)
    | some pr2 =>
      rw [hrp] at h
      rw [rePadLoop_mono F1 F2 hle _ _ _ hrp]
      exact h

theorem buildOneQuestion_mono {allTerms sentences : List Str} {notes : Str}
    {idx : Nat} {cand : Candidate} {r : RNG} {out : Question × RNG} {F1 F2 : Nat}
    (hle : F1 ≤ F2)
    (h : buildOneQuestion allTerms sentences notes F1 idx cand r = some out) :
    buildOneQuestion allTerms sentences notes F2 idx cand r = some out := by
  unfold buildOneQuestion at h ⊢
  simp only at h ⊢
  cases ha : assembleOptions allTerms
      (if idx % 2 = 1 then
        makeFillIn cand.term (if !cand.sentences.isEmpty then r.choiceS cand.sentences
          else if !sentences.isEmpty then r.choiceS sentences else (notes, r)).1
      else
        makeDefLike cand.term (if !cand.sentences.isEmpty then r.choiceS cand.sentences
          else if !sentences.isEmpty then r.choiceS sentences else (notes, r)).1).2
      (if !cand.sentences.isEmpty then r.choiceS cand.sentences
        else if !sentences.isEmpty then r.choiceS sentences else (notes, r)).2 F1 with
  | none => rw [ha] at h; exact absurd h (by simp)
  | some tri =>
    rw [ha] at h
    rw [assembleOptions_mono hle ha]
    exact h

theorem buildQuestions_mono {allTerms sentences : List Str} {notes : Str} :
    ∀ (cands : List Candidate) (idx : Nat) (r : RNG) (out : List Question × RNG)
      (F1 F2 : Nat), F1 ≤ F2 →
      buildQuestions allTerms sentences notes F1 cands idx r = some out →
      buildQuestions allTerms sentences notes F2 cands idx r = some out := by
  intro cands
  induction cands with
  | nil =>
    intro idx r out F1 F2 _ h
    exact h
  | cons c cs ih =>
    intro idx r out F1 F2 hle h
    unfold buildQuestions at h ⊢
    cases h1 : buildOneQuestion allTerms sentences notes F1 idx c r with
    | none => rw [h1] at h; exact absurd h (by simp)
    | some pr =>
      obtain ⟨q, r2⟩ := pr
      rw [h1] at h
      rw [buildOneQuestion_mono hle h1]
      simp only at h ⊢
      cases h2 : buildQuestions allTerms sentences notes F1 cs (idx + 1) r2 with
      | none => rw [h2] at h; exact absurd h (by simp)
      | some pr2 =>
        rw [h2] at h
        rw [ih (idx + 1) r2 pr2 F1 F2 hle h2]
        exact h

/-- Claim C9 amended: the first option-padding loop and all other loops are
structurally bounded, but the variant-synthesis loop and the dedup
re-padding loop terminate only when the draw sequence eventually yields a
fresh element — the `10 * n` check is a conditional break, not a cap, and
the re-padding loop has no cap at all (counterexample above).  What does
hold is that the generator is a fuel-stable partial function: a quiz
produced within some fuel bound remains exactly the same under any larger
bound. -/
theorem C9_amended (sha : Str → Str) (mt : Nat → Nat → Nat → Nat) (F1 F2 : Nat)
    (hle : F1 ≤ F2) (s : Str) (t : Option Str) (q : Quiz)
    (h : generateQuizFromNotes sha mt F1 s t = some q) :
    generateQuizFromNotes sha mt F2 s t = some q := by
  unfold generateQuizFromNotes at h ⊢
  cases hb : buildQuestions (allTermsOf s) (sentencesOf s) (pyStrip s) F1
      (pickedOf sha mt s) 1 (pickPair sha mt s).2 with
  | none => rw [hb] at h; exact absurd h (by simp)
  | some pr =>
    obtain ⟨qs, r1⟩ := pr
    rw [hb] at h
    rw [buildQuestions_mono (pickedOf sha mt s) 1 (pickPair sha mt s).2 (qs, r1) F1 F2
      hle hb]
    exact h

theorem C9_witness : generateQuizFromNotes shaW mtW 51 abcNotes none = some qW :=
  C9_amended shaW mtW 50 51 (by decide) abcNotes none qW genW_eq

end QuizGen